import Mathlib

/-!
Verification development for a small multi-modal transit route system:
a knowledge base of directed weighted edges stored in a dictionary keyed by
(origin, destination), two inference rules (symmetry closure and transfer-edge
synthesis), and a mode-penalized variant of Dijkstra's shortest-path search.

The Python dictionary `self.edges` is embedded as an insertion-ordered
association list; numeric attributes are embedded as rationals.
-/

namespace Actividad2

/-- Edge attributes as stored in the values of `self.edges`:
transport mode, travel time, ticket cost. -/
structure Props where
  mode : String
  time : ℚ
  cost : ℚ
deriving DecidableEq, Repr

/-- A key of the edge dictionary: the ordered pair (origin, destination). -/
abbrev Key := String × String

/-- The edge dictionary `self.edges`: an insertion-ordered association list.
Every dictionary reachable in the program has pairwise distinct keys. -/
abbrev KB := List (Key × Props)

/-- Dictionary membership and read access: first binding for the key. -/
def lookupEdge : KB → Key → Option Props
  | [], _ => none
  | (k', p) :: rest, k => if k' = k then some p else lookupEdge rest k

/-- Dictionary write `self.edges[k] = p`: overwrite in place, or append at the end. -/
def insertEdge : KB → Key → Props → KB
  | [], k, p => [(k, p)]
  | (k', p') :: rest, k, p =>
    if k' = k then (k, p) :: rest else (k', p') :: insertEdge rest k p

/-- The method `KnowledgeBase.add_edge(u, v, mode, time, cost, bidirectional)`. -/
def add_edge (m : KB) (u v : String) (mode : String) (time cost : ℚ)
    (bidirectional : Bool) : KB :=
  let m1 := insertEdge m (u, v) ⟨mode, time, cost⟩
  if bidirectional then insertEdge m1 (v, u) ⟨mode, time, cost⟩ else m1

/-- The method `KnowledgeBase.neighbors(node)`: every (destination, attributes)
pair whose stored origin is `node`, in dictionary order. -/
def neighbors (m : KB) (node : String) : List (String × Props) :=
  m.filterMap (fun e => if e.1.1 = node then some (e.1.2, e.2) else none)

/-- Concatenation of a list of lists (the iteration order of two nested loops). -/
def flatAll : List (List α) → List α
  | [] => []
  | l :: ls => l ++ flatAll ls

/-- The method `KnowledgeBase.make_bidirectional()`: collect, from a snapshot,
the reversal of every edge whose reversal is absent, then insert them all
(non-bidirectionally, exactly as the source does). -/
def make_bidirectional (m : KB) : KB :=
  let new_edges := m.filterMap (fun e =>
    if lookupEdge m (e.1.2, e.1.1) = none then some ((e.1.2, e.1.1), e.2) else none)
  new_edges.foldl (fun acc t => add_edge acc t.1.1 t.1.2 t.2.mode t.2.time t.2.cost false) m

/-- The method `KnowledgeBase.add_transfers(penalty_time)`: for every ordered pair
of snapshot edges sharing an origin, with distinct destinations and distinct
modes, whose destinations are not yet directly connected, record a walk edge
between the destinations; then insert each bidirectionally. -/
def add_transfers (m : KB) (penalty_time : ℚ) : KB :=
  let new_edges := flatAll (m.map (fun e1 =>
    m.filterMap (fun e2 =>
      if e1.1.1 = e2.1.1 ∧ e1.1.2 ≠ e2.1.2 ∧ e1.2.mode ≠ e2.2.mode ∧
          lookupEdge m (e1.1.2, e2.1.2) = none
      then some (e1.1.2, e2.1.2) else none)))
  new_edges.foldl (fun acc t => add_edge acc t.1 t.2 "walk" penalty_time 0 true) m

/-- Keys of a dictionary are pairwise distinct (true of every Python dict). -/
abbrev NodupKeys (m : KB) : Prop := (m.map Prod.fst).Nodup

/-- No stored edge is a self-loop. -/
abbrev NoSelfLoops (m : KB) : Prop := ∀ e ∈ m, e.1.1 ≠ e.1.2

/-! ## Dictionary lemmas -/

theorem lookupEdge_insertEdge_self (m : KB) (k : Key) (p : Props) :
    lookupEdge (insertEdge m k p) k = some p := by
  induction m with
  | nil => simp [insertEdge, lookupEdge]
  | cons e rest ih =>
    by_cases h : e.1 = k
    · simp [insertEdge, h, lookupEdge]
    · simpa [insertEdge, h, lookupEdge] using ih

theorem lookupEdge_insertEdge_ne (m : KB) (k k' : Key) (p : Props) (h : k' ≠ k) :
    lookupEdge (insertEdge m k p) k' = lookupEdge m k' := by
  induction m with
  | nil => simp [insertEdge, lookupEdge, Ne.symm h]
  | cons e rest ih =>
    by_cases he : e.1 = k
    · subst he
      simp [insertEdge, lookupEdge, Ne.symm h]
    · simp only [insertEdge, he, if_false, lookupEdge]
      by_cases he' : e.1 = k'
      · simp [he']
      · simp [he', ih]

theorem mem_insertEdge (m : KB) (k : Key) (p : Props) :
    ∀ e ∈ insertEdge m k p, e = (k, p) ∨ e ∈ m := by
  induction m with
  | nil => simp [insertEdge]
  | cons e0 rest ih =>
    intro e he
    by_cases h : e0.1 = k
    · simp only [insertEdge, h, if_true, List.mem_cons] at he
      rcases he with h1 | h1
      · exact Or.inl h1
      · exact Or.inr (List.mem_cons_of_mem _ h1)
    · simp only [insertEdge, h, if_false, List.mem_cons] at he
      rcases he with h1 | h1
      · exact Or.inr (h1 ▸ List.mem_cons_self _ _)
      · rcases ih e h1 with h2 | h2
        · exact Or.inl h2
        · exact Or.inr (List.mem_cons_of_mem _ h2)

theorem lookupEdge_isSome_of_mem {m : KB} {e : Key × Props} (h : e ∈ m) :
    (lookupEdge m e.1).isSome := by
  induction m with
  | nil => simp at h
  | cons e0 rest ih =>
    rcases List.mem_cons.mp h with h1 | h1
    · subst h1; simp [lookupEdge]
    · by_cases h2 : e0.1 = e.1
      · simp [lookupEdge, h2]
      · simpa [lookupEdge, h2] using ih h1

theorem lookupEdge_mem {m : KB} {k : Key} {p : Props}
    (h : lookupEdge m k = some p) : (k, p) ∈ m := by
  induction m with
  | nil => simp [lookupEdge] at h
  | cons e0 rest ih =>
    by_cases h2 : e0.1 = k
    · simp only [lookupEdge, h2, if_true, Option.some.injEq] at h
      subst h
      rw [← h2]
      exact List.mem_cons_self _ _
    · simp only [lookupEdge, h2, if_false] at h
      exact List.mem_cons_of_mem _ (ih h)

theorem lookupEdge_eq_some_of_mem_of_nodup {m : KB} {e : Key × Props}
    (hnd : NodupKeys m) (h : e ∈ m) : lookupEdge m e.1 = some e.2 := by
  induction m with
  | nil => simp at h
  | cons e0 rest ih =>
    have hnd' : NodupKeys rest := (List.nodup_cons.mp hnd).2
    rcases List.mem_cons.mp h with h1 | h1
    · subst h1; simp [lookupEdge]
    · by_cases h2 : e0.1 = e.1
      · exfalso
        have : e.1 ∈ rest.map Prod.fst := List.mem_map.mpr ⟨e, h1, rfl⟩
        exact (List.nodup_cons.mp hnd).1 (h2 ▸ this)
      · simpa [lookupEdge, h2] using ih hnd' h1

/-- Applying a batch of dictionary writes in order. -/
def applyInserts (m : KB) (l : List (Key × Props)) : KB :=
  l.foldl (fun acc t => insertEdge acc t.1 t.2) m

theorem applyInserts_nil (m : KB) : applyInserts m [] = m := rfl

theorem applyInserts_cons (m : KB) (t : Key × Props) (l : List (Key × Props)) :
    applyInserts m (t :: l) = applyInserts (insertEdge m t.1 t.2) l := rfl

theorem lookupEdge_applyInserts_of_not_mem (l : List (Key × Props)) :
    ∀ (m : KB) (k : Key), k ∉ l.map Prod.fst →
      lookupEdge (applyInserts m l) k = lookupEdge m k := by
  induction l with
  | nil => intro m k _; rfl
  | cons t rest ih =>
    intro m k hk
    simp only [List.map_cons, List.mem_cons, not_or] at hk
    rw [applyInserts_cons, ih _ _ hk.2, lookupEdge_insertEdge_ne _ _ _ _ (fun h => hk.1 h)]

theorem lookupEdge_applyInserts_isSome_mono (l : List (Key × Props)) :
    ∀ (m : KB) (k : Key), (lookupEdge m k).isSome →
      (lookupEdge (applyInserts m l) k).isSome := by
  induction l with
  | nil => intro m k h; exact h
  | cons t rest ih =>
    intro m k h
    rw [applyInserts_cons]
    apply ih
    by_cases hk : k = t.1
    · subst hk; simp [lookupEdge_insertEdge_self]
    · rwa [lookupEdge_insertEdge_ne _ _ _ _ hk]

theorem lookupEdge_applyInserts_isSome_of_mem_keys (l : List (Key × Props)) :
    ∀ (m : KB) (k : Key), k ∈ l.map Prod.fst →
      (lookupEdge (applyInserts m l) k).isSome := by
  induction l with
  | nil => intro m k h; simp at h
  | cons t rest ih =>
    intro m k hk
    rw [applyInserts_cons]
    rcases List.mem_cons.mp hk with h1 | h1
    · apply lookupEdge_applyInserts_isSome_mono
      subst h1; simp [lookupEdge_insertEdge_self]
    · exact ih _ _ h1

theorem mem_applyInserts (l : List (Key × Props)) :
    ∀ (m : KB), ∀ e ∈ applyInserts m l, e ∈ m ∨ e ∈ l := by
  induction l with
  | nil => intro m e he; exact Or.inl he
  | cons t rest ih =>
    intro m e he
    rw [applyInserts_cons] at he
    rcases ih _ e he with h1 | h1
    · rcases mem_insertEdge _ _ _ _ h1 with h2 | h2
      · exact Or.inr (h2 ▸ List.mem_cons_self _ _)
      · exact Or.inl h2
    · exact Or.inr (List.mem_cons_of_mem _ h1)

theorem lookupEdge_applyInserts_cases (l : List (Key × Props)) :
    ∀ (m : KB) (k : Key),
      lookupEdge (applyInserts m l) k = lookupEdge m k ∨
      ∃ p, (k, p) ∈ l ∧ lookupEdge (applyInserts m l) k = some p := by
  induction l with
  | nil => intro m k; exact Or.inl rfl
  | cons t rest ih =>
    intro m k
    rw [applyInserts_cons]
    rcases ih (insertEdge m t.1 t.2) k with h1 | ⟨p, hp, h2⟩
    · by_cases hk : k = t.1
      · subst hk
        refine Or.inr ⟨t.2, List.mem_cons_self _ _, ?_⟩
        rw [h1, lookupEdge_insertEdge_self]
      · rw [h1, lookupEdge_insertEdge_ne _ _ _ _ hk]
        exact Or.inl rfl
    · exact Or.inr ⟨p, List.mem_cons_of_mem _ hp, h2⟩

theorem mem_flatAll {α : Type} {x : α} {ls : List (List α)} :
    x ∈ flatAll ls ↔ ∃ l ∈ ls, x ∈ l := by
  induction ls with
  | nil => simp [flatAll]
  | cons l ls ih => simp [flatAll, List.mem_append, ih]

/-! ## Normal forms of the two rules -/

/-- The list `new_edges` built by the first loop of `make_bidirectional`. -/
def revNew (m : KB) : List (Key × Props) :=
  m.filterMap (fun e =>
    if lookupEdge m (e.1.2, e.1.1) = none then some ((e.1.2, e.1.1), e.2) else none)

theorem make_bidirectional_eq (m : KB) :
    make_bidirectional m = applyInserts m (revNew m) := rfl

theorem mem_revNew {m : KB} {e : Key × Props} (h : e ∈ revNew m) :
    ∃ e0 ∈ m, lookupEdge m (e0.1.2, e0.1.1) = none ∧ e = ((e0.1.2, e0.1.1), e0.2) := by
  rcases List.mem_filterMap.mp h with ⟨e0, h0, hsome⟩
  by_cases hc : lookupEdge m (e0.1.2, e0.1.1) = none
  · rw [if_pos hc] at hsome
    exact ⟨e0, h0, hc, (Option.some.injEq _ _ ▸ hsome).symm⟩
  · rw [if_neg hc] at hsome
    exact absurd hsome (by simp)

theorem mem_revNew_of {m : KB} {e0 : Key × Props} (h : e0 ∈ m)
    (hc : lookupEdge m (e0.1.2, e0.1.1) = none) :
    ((e0.1.2, e0.1.1), e0.2) ∈ revNew m :=
  List.mem_filterMap.mpr ⟨e0, h, by rw [if_pos hc]⟩

/-- The list of (origin, destination) pairs recorded by `add_transfers`. -/
def transferPairs (m : KB) : List (String × String) :=
  flatAll (m.map (fun e1 =>
    m.filterMap (fun e2 =>
      if e1.1.1 = e2.1.1 ∧ e1.1.2 ≠ e2.1.2 ∧ e1.2.mode ≠ e2.2.mode ∧
          lookupEdge m (e1.1.2, e2.1.2) = none
      then some (e1.1.2, e2.1.2) else none)))

/-- The dictionary writes performed by a batch of bidirectional `add_edge` calls. -/
def pairInserts (w : Props) : List (String × String) → List (Key × Props)
  | [] => []
  | t :: rest => ((t.1, t.2), w) :: ((t.2, t.1), w) :: pairInserts w rest

theorem foldl_add_edge_bidi (p : ℚ) (l : List (String × String)) :
    ∀ m : KB,
      l.foldl (fun acc t => add_edge acc t.1 t.2 "walk" p 0 true) m =
        applyInserts m (pairInserts ⟨"walk", p, 0⟩ l) := by
  induction l with
  | nil => intro m; rfl
  | cons t rest ih =>
    intro m
    simp only [List.foldl_cons, pairInserts, applyInserts_cons]
    exact ih _

theorem add_transfers_eq (m : KB) (p : ℚ) :
    add_transfers m p = applyInserts m (pairInserts ⟨"walk", p, 0⟩ (transferPairs m)) :=
  foldl_add_edge_bidi p (transferPairs m) m

theorem mem_transferPairs {m : KB} {t : String × String} (h : t ∈ transferPairs m) :
    ∃ e1 ∈ m, ∃ e2 ∈ m,
      e1.1.1 = e2.1.1 ∧ e1.1.2 ≠ e2.1.2 ∧ e1.2.mode ≠ e2.2.mode ∧
      lookupEdge m (e1.1.2, e2.1.2) = none ∧ t = (e1.1.2, e2.1.2) := by
  rcases mem_flatAll.mp h with ⟨l, hl, hx⟩
  rcases List.mem_map.mp hl with ⟨e1, he1, rfl⟩
  rcases List.mem_filterMap.mp hx with ⟨e2, he2, hsome⟩
  by_cases hc : e1.1.1 = e2.1.1 ∧ e1.1.2 ≠ e2.1.2 ∧ e1.2.mode ≠ e2.2.mode ∧
      lookupEdge m (e1.1.2, e2.1.2) = none
  · rw [if_pos hc] at hsome
    exact ⟨e1, he1, e2, he2, hc.1, hc.2.1, hc.2.2.1, hc.2.2.2,
      (Option.some.injEq _ _ ▸ hsome).symm⟩
  · rw [if_neg hc] at hsome
    exact absurd hsome (by simp)

theorem mem_pairInserts {w : Props} {l : List (String × String)} {e : Key × Props}
    (h : e ∈ pairInserts w l) :
    e.2 = w ∧ ((e.1.1, e.1.2) ∈ l ∨ (e.1.2, e.1.1) ∈ l) := by
  induction l with
  | nil => simp [pairInserts] at h
  | cons t rest ih =>
    simp only [pairInserts, List.mem_cons] at h
    rcases h with h1 | h1 | h1
    · subst h1
      exact ⟨rfl, Or.inl (List.mem_cons_self _ _)⟩
    · subst h1
      exact ⟨rfl, Or.inr (List.mem_cons_self _ _)⟩
    · rcases ih h1 with ⟨hw, hm⟩
      exact ⟨hw, hm.imp (List.mem_cons_of_mem _) (List.mem_cons_of_mem _)⟩

/-! ## Properties of the rules (claims C3, C4, C5, C8) -/

theorem rev_present (m : KB) :
    ∀ e ∈ make_bidirectional m,
      (lookupEdge (make_bidirectional m) (e.1.2, e.1.1)).isSome := by
  intro e he
  rw [make_bidirectional_eq] at he ⊢
  rcases mem_applyInserts _ _ _ he with h1 | h1
  · by_cases hc : lookupEdge m (e.1.2, e.1.1) = none
    · apply lookupEdge_applyInserts_isSome_of_mem_keys
      exact List.mem_map.mpr ⟨((e.1.2, e.1.1), e.2), mem_revNew_of h1 hc, rfl⟩
    · exact lookupEdge_applyInserts_isSome_mono _ _ _ (Option.ne_none_iff_isSome.mp hc)
  · rcases mem_revNew h1 with ⟨e0, he0, _, rfl⟩
    exact lookupEdge_applyInserts_isSome_mono _ _ _ (lookupEdge_isSome_of_mem he0)

theorem revNew_make_bidirectional (m : KB) : revNew (make_bidirectional m) = [] := by
  rw [revNew, List.filterMap_eq_nil_iff]
  intro e he
  rw [if_neg]
  exact Option.ne_none_iff_isSome.mpr (rev_present m e he)

/-- C4: the symmetry rule is idempotent: a second `make_bidirectional()` call
leaves the edge mapping literally unchanged, for every edge set. -/
theorem claim_C4_symmetry_idempotent :
    ∀ m : KB, make_bidirectional (make_bidirectional m) = make_bidirectional m := by
  intro m
  conv_lhs => rw [make_bidirectional_eq, revNew_make_bidirectional, applyInserts_nil]

/-- A knowledge base holding an A-to-B metro edge and a B-to-A bus edge,
inserted by two non-bidirectional `add_edge` calls. -/
def kbC3 : KB :=
  add_edge (add_edge [] "A" "B" "metro" 1 1 false) "B" "A" "bus" 2 2 false

/-- C3 fails as stated: after `make_bidirectional()`, the key (A,B) is present
but the attributes of (B,A) are not identical to those of (A,B): the snapshot
loop adds nothing when both orientations already exist with different
attributes. -/
theorem claim_C3_counterexample :
    lookupEdge (make_bidirectional kbC3) ("A", "B") = some ⟨"metro", 1, 1⟩ ∧
    lookupEdge (make_bidirectional kbC3) ("B", "A") = some ⟨"bus", 2, 2⟩ ∧
    (⟨"metro", 1, 1⟩ : Props) ≠ ⟨"bus", 2, 2⟩ := by
  with_unfolding_all decide

/-- C3 amended: after one `make_bidirectional()` call on a knowledge base (keys
unique, as in every Python dict), for every key (u,v) present in the result the
key (v,u) is also present; and whenever (v,u) was absent before the call its
attributes in the result are identical to those of (u,v). -/
theorem claim_C3_amended :
    ∀ (m : KB) (u v : String), NodupKeys m →
      (lookupEdge (make_bidirectional m) (u, v)).isSome →
      (lookupEdge (make_bidirectional m) (v, u)).isSome ∧
      (lookupEdge m (v, u) = none →
        lookupEdge (make_bidirectional m) (v, u) =
          lookupEdge (make_bidirectional m) (u, v)) := by
  intro m u v hnd h1
  rcases Option.isSome_iff_exists.mp h1 with ⟨p, hp⟩
  have hmem : ((u, v), p) ∈ make_bidirectional m := lookupEdge_mem hp
  have hpres : (lookupEdge (make_bidirectional m) (v, u)).isSome :=
    rev_present m _ hmem
  refine ⟨hpres, ?_⟩
  intro hv
  have hpm : lookupEdge m (u, v) = some p := by
    rcases lookupEdge_applyInserts_cases (revNew m) m (u, v) with h2 | ⟨q, hq, h2⟩
    · rw [← make_bidirectional_eq] at h2
      rw [← h2, hp]
    · exfalso
      rcases mem_revNew hq with ⟨e0, he0, _, heq⟩
      injection heq with ha _
      injection ha with h3 h4
      have h6 := lookupEdge_isSome_of_mem he0
      have hk : e0.1 = (v, u) := by rw [h4, h3]
      rw [hk, hv] at h6
      simp at h6
  rcases lookupEdge_applyInserts_cases (revNew m) m (v, u) with h2 | ⟨q, hq, h2⟩
  · exfalso
    rw [← make_bidirectional_eq] at h2
    rw [h2, hv] at hpres
    simp at hpres
  · rw [← make_bidirectional_eq] at h2
    rcases mem_revNew hq with ⟨e0, he0, _, heq⟩
    injection heq with ha hb
    injection ha with h3 h4
    have hk : e0.1 = (u, v) := by rw [h4, h3]
    have h6 := lookupEdge_eq_some_of_mem_of_nodup hnd he0
    rw [hk, hpm] at h6
    have hval : e0.2 = p := (Option.some.inj h6).symm
    rw [h2, hb, hval, hp]

/-- A knowledge base holding a single non-bidirectional metro edge. -/
def kbW3 : KB := add_edge [] "A" "B" "metro" 1 1 false

/-- Witness for C3 amended at a concrete input. -/
theorem claim_C3_witness :
    (lookupEdge (make_bidirectional kbW3) ("B", "A")).isSome ∧
    lookupEdge (make_bidirectional kbW3) ("B", "A") =
      lookupEdge (make_bidirectional kbW3) ("A", "B") :=
  ⟨(claim_C3_amended kbW3 "A" "B" (by decide) (by decide)).1,
   (claim_C3_amended kbW3 "A" "B" (by decide) (by decide)).2 (by decide)⟩

/-- No pair of same-origin, distinct-destination, distinct-mode edges is
missing its connecting edge: the transfer rule has nothing left to add. -/
abbrev TransferClosed (m : KB) : Prop :=
  ∀ e1 ∈ m, ∀ e2 ∈ m,
    ¬(e1.1.1 = e2.1.1 ∧ e1.1.2 ≠ e2.1.2 ∧ e1.2.mode ≠ e2.2.mode ∧
      lookupEdge m (e1.1.2, e2.1.2) = none)

theorem flatAll_eq_nil {α : Type} {ls : List (List α)} (h : ∀ l ∈ ls, l = []) :
    flatAll ls = [] := by
  induction ls with
  | nil => rfl
  | cons l ls ih =>
    simp [flatAll, h l (List.mem_cons_self _ _),
      ih (fun x hx => h x (List.mem_cons_of_mem _ hx))]

theorem transferPairs_eq_nil {m : KB} (h : TransferClosed m) : transferPairs m = [] := by
  apply flatAll_eq_nil
  intro l hl
  rcases List.mem_map.mp hl with ⟨e1, he1, rfl⟩
  rw [List.filterMap_eq_nil_iff]
  intro e2 he2
  rw [if_neg (h e1 he1 e2 he2)]

/-- Three directed edges on which the transfer rule is not idempotent. -/
def kbT : KB :=
  add_edge (add_edge (add_edge [] "a" "b" "metro" 1 0 false) "a" "d" "bus" 1 0 false)
    "b" "e" "metro" 1 0 false

/-- C5 fails as stated: a second `add_transfers` call on this base adds the key
(e,d) (a transfer through the walk edge (b,d) synthesized by the first call),
which the first call had not produced. -/
theorem claim_C5_counterexample :
    lookupEdge (add_transfers (add_transfers kbT 3) 3) ("e", "d") =
      some ⟨"walk", 3, 0⟩ ∧
    lookupEdge (add_transfers kbT 3) ("e", "d") = none := by
  with_unfolding_all decide

/-- C5 amended: `add_transfers` applied again is not a no-op in general. What
holds: a call on a transfer-closed mapping changes nothing (so repetition is a
no-op exactly once the closure is reached); no call ever removes a key; and
every key a call adds or overwrites is bound to a walk edge with time p and
cost 0. -/
theorem claim_C5_amended :
    ∀ (m : KB) (p : ℚ),
      (TransferClosed m → add_transfers m p = m) ∧
      (∀ k : Key, (lookupEdge m k).isSome →
        (lookupEdge (add_transfers m p) k).isSome) ∧
      (∀ k : Key, lookupEdge (add_transfers m p) k ≠ lookupEdge m k →
        lookupEdge (add_transfers m p) k = some ⟨"walk", p, 0⟩) := by
  intro m p
  refine ⟨?_, ?_, ?_⟩
  · intro h
    rw [add_transfers_eq, transferPairs_eq_nil h]
    rfl
  · intro k hk
    rw [add_transfers_eq]
    exact lookupEdge_applyInserts_isSome_mono _ _ _ hk
  · intro k hk
    rw [add_transfers_eq] at hk ⊢
    rcases lookupEdge_applyInserts_cases
        (pairInserts ⟨"walk", p, 0⟩ (transferPairs m)) m k with h2 | ⟨q, hq, h2⟩
    · exact absurd h2 hk
    · have hw : q = (⟨"walk", p, 0⟩ : Props) := (mem_pairInserts hq).1
      rw [h2, hw]

/-- Witness for C5 amended at concrete inputs, including a key actually
changed by a call. -/
theorem claim_C5_witness :
    add_transfers kbW3 3 = kbW3 ∧
    (lookupEdge (add_transfers kbW3 3) ("A", "B")).isSome ∧
    lookupEdge (add_transfers kbT 3) ("b", "d") = some ⟨"walk", 3, 0⟩ :=
  ⟨(claim_C5_amended kbW3 3).1 (by decide),
   (claim_C5_amended kbW3 3).2.1 ("A", "B") (by decide),
   (claim_C5_amended kbT 3).2.2 ("b", "d") (by with_unfolding_all decide)⟩

/-- C8: neither rule ever inserts a self-loop: starting from a self-loop-free
edge set both rules produce self-loop-free edge sets; and the symmetry rule
never touches a key of the form (u,u), even when self-loops are present. -/
theorem claim_C8_no_self_loops :
    ∀ (m : KB) (p : ℚ),
      (NoSelfLoops m →
        NoSelfLoops (make_bidirectional m) ∧ NoSelfLoops (add_transfers m p)) ∧
      (∀ u : String, lookupEdge (make_bidirectional m) (u, u) = lookupEdge m (u, u)) := by
  intro m p
  constructor
  · intro hs
    constructor
    · intro e he
      rw [make_bidirectional_eq] at he
      rcases mem_applyInserts _ _ _ he with h1 | h1
      · exact hs e h1
      · rcases mem_revNew h1 with ⟨e0, he0, _, rfl⟩
        exact Ne.symm (hs e0 he0)
    · intro e he
      rw [add_transfers_eq] at he
      rcases mem_applyInserts _ _ _ he with h1 | h1
      · exact hs e h1
      · rcases mem_pairInserts h1 with ⟨_, h2 | h2⟩
        · rcases mem_transferPairs h2 with ⟨e1, _, e2, _, _, hne, _, _, ht⟩
          injection ht with ha hb
          rw [ha, hb]; exact hne
        · rcases mem_transferPairs h2 with ⟨e1, _, e2, _, _, hne, _, _, ht⟩
          injection ht with ha hb
          rw [ha, hb]; exact (Ne.symm hne)
  · intro u
    rw [make_bidirectional_eq]
    apply lookupEdge_applyInserts_of_not_mem
    intro hmem
    rcases List.mem_map.mp hmem with ⟨e, he, hk⟩
    rcases mem_revNew he with ⟨e0, he0, hnone, rfl⟩
    have hk2 : (e0.1.2, e0.1.1) = (u, u) := hk
    injection hk2 with h4 h5
    have hlook : lookupEdge m (u, u) = none := by rwa [h4, h5] at hnone
    have h6 := lookupEdge_isSome_of_mem he0
    have hku : e0.1 = (u, u) := Prod.ext h5 h4
    rw [hku, hlook] at h6
    simp at h6

/-- Witness for C8 at a concrete input. -/
theorem claim_C8_witness :
    NoSelfLoops (make_bidirectional kbW3) ∧ NoSelfLoops (add_transfers kbW3 3) ∧
    lookupEdge (make_bidirectional kbW3) ("A", "A") = lookupEdge kbW3 ("A", "A") :=
  ⟨((claim_C8_no_self_loops kbW3 3).1 (by decide)).1,
   ((claim_C8_no_self_loops kbW3 3).1 (by decide)).2,
   (claim_C8_no_self_loops kbW3 3).2 "A"⟩

/-! ## The search: mode-penalized Dijkstra

The priority queue holds tuples `(accumulated value, node, previous mode,
path so far)`, compared lexicographically as Python compares tuples. The heap
is modelled as a multiset from which `popMin` removes a least element under
that total order; the visited map is keyed by `(node, previous mode)`. -/

/-- The metric attribute selected by the `metric` parameter: one of the two
values accepted by the program (the surrounding menu validates this). -/
inductive Metric where
  | time
  | cost
deriving DecidableEq, Repr

/-- Reading `props[metric]`. -/
def Props.get : Props → Metric → ℚ
  | p, Metric.time => p.time
  | p, Metric.cost => p.cost

/-- One queue element `(acc, node, prev_mode, path)`. -/
structure Entry where
  acc : ℚ
  node : String
  prev_mode : Option String
  path : List String
deriving DecidableEq, Repr

/-- Lexicographic strict order on lists from a strict order on elements
(Python's list and string comparison). -/
def lexLt (lt : α → α → Bool) : List α → List α → Bool
  | _, [] => false
  | [], _ :: _ => true
  | a :: as, b :: bs => if lt a b then true else if lt b a then false else lexLt lt as bs

/-- Python's string comparison: lexicographic on code points. -/
def strLtB (s t : String) : Bool := lexLt (fun a b => a.toNat < b.toNat) s.data t.data

/-- Order on the `prev_mode` component. `none` is placed below every string;
this choice is never exercised: the only entry carrying `none` is the initial
one, which is alone in the queue when it is popped. -/
def omLtB : Option String → Option String → Bool
  | none, none => false
  | none, some _ => true
  | some _, none => false
  | some a, some b => strLtB a b

/-- Python's tuple comparison on queue entries. -/
def entryLtB (x y : Entry) : Bool :=
  if x.acc < y.acc then true
  else if y.acc < x.acc then false
  else if strLtB x.node y.node then true
  else if strLtB y.node x.node then false
  else if omLtB x.prev_mode y.prev_mode then true
  else if omLtB y.prev_mode x.prev_mode then false
  else lexLt strLtB x.path y.path

/-- Remove a least entry (`heapq.heappop`): returns it and the rest of the heap. -/
def popMin : List Entry → Option (Entry × List Entry)
  | [] => none
  | e :: rest =>
    match popMin rest with
    | none => some (e, [])
    | some (m, rest') => if entryLtB m e then some (m, e :: rest') else some (e, rest)

/-- The visited map, keyed by `(node, previous mode)`. -/
abbrev VKey := String × Option String

/-- The visited dictionary. -/
abbrev Visited := List (VKey × ℚ)

/-- Dictionary read on the visited map. -/
def lookupV : Visited → VKey → Option ℚ
  | [], _ => none
  | (k', v) :: rest, k => if k' = k then some v else lookupV rest k

/-- Dictionary write on the visited map. -/
def insertV : Visited → VKey → ℚ → Visited
  | [], k, v => [(k, v)]
  | (k', v') :: rest, k, v =>
    if k' = k then (k, v) :: rest else (k', v') :: insertV rest k v

/-- The penalty guard `prev_mode and prev_mode != next_mode`: in Python the
conjunct `prev_mode` is a truthiness test, false for `None` and for the empty
string. -/
def penaltyApplies : Option String → String → Bool
  | none, _ => false
  | some s, next => decide (s ≠ "") && decide (s ≠ next)

/-- The pushes performed when expanding a popped entry: one new entry per
neighbor, with the accumulated value increased by the edge's metric attribute
plus the transfer penalty when the mode changes. -/
def expandPushes (kb : KB) (metric : Metric) (tp : ℚ) (e : Entry) : List Entry :=
  (neighbors kb e.node).map (fun x =>
    ⟨e.acc + Props.get x.2 metric + (if penaltyApplies e.prev_mode x.2.mode then tp else 0),
     x.1, some x.2.mode, e.path ++ [x.1]⟩)

/-- Outcome of one iteration of the `while pq` loop. -/
inductive StepRes where
  | done (r : Option (List String) × WithTop ℚ)
  | cont (pq : List Entry) (visited : Visited)

/-- One iteration of the loop: pop a least entry; return on the goal;
skip a stale state; otherwise record the state and push the neighbors.
The value `(none, ⊤)` models the Python result `(None, float("inf"))`. -/
def dijkstraStep (kb : KB) (goal : String) (metric : Metric) (tp : ℚ)
    (pq : List Entry) (visited : Visited) : StepRes :=
  match popMin pq with
  | none => StepRes.done (none, ⊤)
  | some (e, pq') =>
    if e.node = goal then StepRes.done (some e.path, (e.acc : WithTop ℚ))
    else
      match lookupV visited (e.node, e.prev_mode) with
      | some v =>
        if v ≤ e.acc then StepRes.cont pq' visited
        else StepRes.cont (pq' ++ expandPushes kb metric tp e)
          (insertV visited (e.node, e.prev_mode) e.acc)
      | none => StepRes.cont (pq' ++ expandPushes kb metric tp e)
          (insertV visited (e.node, e.prev_mode) e.acc)

/-- The loop, driven by fuel: the Python loop has no bound, and diverges on
inputs with negative cycles, so the embedding exhausts its fuel (`none`)
exactly when the Python loop would still be running. -/
def dijkstraLoop (kb : KB) (goal : String) (metric : Metric) (tp : ℚ) :
    Nat → List Entry → Visited → Option (Option (List String) × WithTop ℚ)
  | 0, _, _ => none
  | fuel + 1, pq, visited =>
    match dijkstraStep kb goal metric tp pq visited with
    | StepRes.done r => some r
    | StepRes.cont pq2 vis2 => dijkstraLoop kb goal metric tp fuel pq2 vis2

/-- Fuel sufficient for every terminating run (proved below for non-negative
weights): each (node, previous-mode) state is expanded at most once, each
expansion pushes at most one entry per stored edge, and every iteration pops
one entry. -/
def dijkstraFuel (kb : KB) : Nat :=
  (2 * kb.length + 1) * (kb.length + 1) * (kb.length + 1) + 2

/-- The function `dijkstra(kb, start, goal, metric, transfer_penalty)`. -/
def dijkstra (kb : KB) (start goal : String) (metric : Metric) (transfer_penalty : ℚ) :
    Option (Option (List String) × WithTop ℚ) :=
  dijkstraLoop kb goal metric transfer_penalty (dijkstraFuel kb)
    [⟨0, start, none, [start]⟩] []

/-! ## The neighbor-expansion formula (claim C7) -/

/-- A knowledge base holding a single directed edge with mode "x". -/
def kbP : KB := add_edge [] "A" "B" "x" 1 1 false

/-- C7 fails as stated: expanding a state whose previous mode is the empty
string adds no penalty, although a previous mode exists (`some ""`) and differs
from the edge's mode: the source's guard `prev_mode and prev_mode != next_mode`
is a Python truthiness test, false for the empty string. -/
theorem claim_C7_counterexample :
    expandPushes kbP Metric.time 5 ⟨0, "A", some "", ["A"]⟩ =
      [⟨0 + 1 + 0, "B", some "x", ["A", "B"]⟩] ∧
    (some "" : Option String) ≠ none ∧
    (some "" : Option String) ≠ some "x" ∧
    ((0 : ℚ) + 1 + 0) ≠ 0 + 1 + 5 := by
  with_unfolding_all decide

/-- C7 amended: each neighbor expansion pushes, for every neighbor edge, the
entry whose accumulated value is the current value plus the edge's metric
attribute, plus the transfer penalty exactly when a previous NON-EMPTY mode
exists and differs from the edge's mode; in particular no penalty is added on
the first edge out of start (previous mode undefined). -/
theorem claim_C7_amended :
    ∀ (kb : KB) (metric : Metric) (tp : ℚ) (e : Entry),
      expandPushes kb metric tp e =
        (neighbors kb e.node).map (fun x =>
          ⟨e.acc + Props.get x.2 metric +
            (if e.prev_mode ≠ none ∧ e.prev_mode ≠ some "" ∧
                e.prev_mode ≠ some x.2.mode
             then tp else 0),
           x.1, some x.2.mode, e.path ++ [x.1]⟩) := by
  intro kb metric tp e
  unfold expandPushes
  apply List.map_congr_left
  intro x _
  have hpen : (if penaltyApplies e.prev_mode x.2.mode then tp else 0) =
      (if e.prev_mode ≠ none ∧ e.prev_mode ≠ some "" ∧
          e.prev_mode ≠ some x.2.mode then tp else 0) := by
    cases hpm : e.prev_mode with
    | none => simp [penaltyApplies]
    | some s =>
      by_cases h1 : s = ""
      · subst h1
        simp [penaltyApplies]
      · by_cases h2 : s = x.2.mode
        · subst h2
          simp [penaltyApplies]
        · simp [penaltyApplies, h1, h2]
  rw [hpen]

/-! ## The seeded example network -/

/-- The base facts inserted by the main program before the menu loop. -/
def seedKB : KB :=
  add_edge (add_edge (add_edge (add_edge (add_edge (add_edge (add_edge (add_edge []
    "A" "B" "metro" 4 (3/2) true)
    "B" "C" "metro" 3 (6/5) true)
    "C" "D" "metro" 5 (9/5) true)
    "B" "P1" "bus" 6 (9/10) true)
    "P1" "P2" "bus" 8 (11/10) true)
    "P2" "D" "bus" 7 1 true)
    "A" "Centro" "tram" 10 (17/10) true)
    "Centro" "D" "tram" 9 (8/5) true

/-- The knowledge base after the initial rule applications
`kb.make_bidirectional()` and `kb.add_transfers()` (default penalty 3.0). -/
def exampleKB : KB := add_transfers (make_bidirectional seedKB) 3

/-! ## Walks and shortest distance

The spec-side notion used by the search-optimality claim: a walk is a node
sequence whose consecutive pairs are stored edges; the classical shortest-path
distance is the least weight of a duplicate-free walk from start to goal. -/

/-- Weight contributed by one stored edge (0 for an absent key; only used on
valid walks). -/
def edgeW (kb : KB) (metric : Metric) (a b : String) : ℚ :=
  match lookupEdge kb (a, b) with
  | some p => Props.get p metric
  | none => 0

/-- Total weight of a node sequence under the chosen metric. -/
def wt (kb : KB) (metric : Metric) : List String → ℚ
  | [] => 0
  | [_] => 0
  | a :: b :: rest => edgeW kb metric a b + wt kb metric (b :: rest)

/-- Every consecutive pair of the sequence is a stored edge. -/
def validWalkB (kb : KB) : List String → Bool
  | [] => true
  | [_] => true
  | a :: b :: rest => (lookupEdge kb (a, b)).isSome && validWalkB kb (b :: rest)

/-- Propositional form of `validWalkB`. -/
def ValidWalk (kb : KB) (p : List String) : Prop := validWalkB kb p = true

/-- All origins and destinations appearing in the edge mapping. -/
def nodesOf (kb : KB) : List String :=
  kb.map (fun e => e.1.1) ++ kb.map (fun e => e.1.2)

/-- Every duplicate-free node sequence drawn from the known nodes plus the
start node. -/
def candidatePaths (kb : KB) (start : String) : List (List String) :=
  flatAll (((start :: nodesOf kb).dedup.sublists).map List.permutations)

/-- The sequence is a walk from s to g. -/
def isWalkFromTo (kb : KB) (s g : String) (p : List String) : Bool :=
  validWalkB kb p && (p.head? == some s) && (p.getLast? == some g)

/-- Some walk leads from s to g (equivalently, some duplicate-free one does). -/
abbrev Connected (kb : KB) (s g : String) : Prop :=
  ∃ p ∈ candidatePaths kb s, isWalkFromTo kb s g p = true

/-- The classical shortest-path distance from s to g: the least weight of a
duplicate-free walk, `none` when no walk exists. -/
def shortestDist (kb : KB) (s g : String) (metric : Metric) : Option ℚ :=
  (((candidatePaths kb s).filter (isWalkFromTo kb s g)).map (wt kb metric)).min?

theorem valid_cons {kb : KB} {a b : String} {rest : List String} :
    ValidWalk kb (a :: b :: rest) ↔
      (lookupEdge kb (a, b)).isSome ∧ ValidWalk kb (b :: rest) := by
  simp [ValidWalk, validWalkB, Bool.and_eq_true]

theorem valid_single {kb : KB} {a : String} : ValidWalk kb [a] := rfl

theorem edgeW_eq {kb : KB} {metric : Metric} {a b : String} {q : Props}
    (hq : lookupEdge kb (a, b) = some q) :
    edgeW kb metric a b = Props.get q metric := by
  simp [edgeW, hq]

theorem edgeW_nonneg {kb : KB} {metric : Metric}
    (hnn : ∀ e ∈ kb, 0 ≤ Props.get e.2 metric) {a b : String}
    (h : (lookupEdge kb (a, b)).isSome) : 0 ≤ edgeW kb metric a b := by
  rcases Option.isSome_iff_exists.mp h with ⟨q, hq⟩
  rw [edgeW_eq hq]
  exact hnn ((a, b), q) (lookupEdge_mem hq)

theorem wt_nonneg {kb : KB} {metric : Metric}
    (hnn : ∀ e ∈ kb, 0 ≤ Props.get e.2 metric) :
    ∀ p, ValidWalk kb p → 0 ≤ wt kb metric p := by
  intro p
  induction p with
  | nil => intro _; simp [wt]
  | cons a rest ih =>
    cases rest with
    | nil => intro _; simp [wt]
    | cons b rest2 =>
      intro h
      rcases valid_cons.mp h with ⟨h1, h2⟩
      have h3 := ih h2
      have h4 := edgeW_nonneg hnn h1
      show 0 ≤ edgeW kb metric a b + wt kb metric (b :: rest2)
      linarith

theorem validWalkB_append (kb : KB) :
    ∀ (xs : List String) (u : String) (rest : List String),
      validWalkB kb (xs ++ u :: rest) =
        (validWalkB kb (xs ++ [u]) && validWalkB kb (u :: rest)) := by
  intro xs
  induction xs with
  | nil =>
    intro u rest
    simp [validWalkB]
  | cons a xs ih =>
    intro u rest
    cases xs with
    | nil =>
      show ((lookupEdge kb (a, u)).isSome && validWalkB kb (u :: rest)) = _
      have h2 : validWalkB kb ([a] ++ [u]) = ((lookupEdge kb (a, u)).isSome && true) := rfl
      rw [h2, Bool.and_true]
    | cons b xs2 =>
      calc validWalkB kb ((a :: b :: xs2) ++ u :: rest)
          = ((lookupEdge kb (a, b)).isSome &&
              validWalkB kb ((b :: xs2) ++ u :: rest)) := rfl
        _ = ((lookupEdge kb (a, b)).isSome &&
              (validWalkB kb ((b :: xs2) ++ [u]) && validWalkB kb (u :: rest))) := by
            rw [ih]
        _ = (validWalkB kb ((a :: b :: xs2) ++ [u]) && validWalkB kb (u :: rest)) := by
            rw [← Bool.and_assoc]
            rfl

theorem valid_append_iff {kb : KB} {xs : List String} {u : String} {rest : List String} :
    ValidWalk kb (xs ++ u :: rest) ↔
      ValidWalk kb (xs ++ [u]) ∧ ValidWalk kb (u :: rest) := by
  unfold ValidWalk
  rw [validWalkB_append]
  simp only [Bool.and_eq_true]

theorem wt_append (kb : KB) (metric : Metric) :
    ∀ (xs : List String) (u : String) (rest : List String),
      wt kb metric (xs ++ u :: rest) =
        wt kb metric (xs ++ [u]) + wt kb metric (u :: rest) := by
  intro xs
  induction xs with
  | nil =>
    intro u rest
    show wt kb metric (u :: rest) = wt kb metric [u] + wt kb metric (u :: rest)
    show wt kb metric (u :: rest) = 0 + wt kb metric (u :: rest)
    ring
  | cons a xs ih =>
    intro u rest
    cases xs with
    | nil =>
      show edgeW kb metric a u + wt kb metric (u :: rest) =
        (edgeW kb metric a u + 0) + wt kb metric (u :: rest)
      ring
    | cons b xs2 =>
      calc wt kb metric ((a :: b :: xs2) ++ u :: rest)
          = edgeW kb metric a b + wt kb metric ((b :: xs2) ++ u :: rest) := rfl
        _ = edgeW kb metric a b +
              (wt kb metric ((b :: xs2) ++ [u]) + wt kb metric (u :: rest)) := by
            rw [ih]
        _ = wt kb metric ((a :: b :: xs2) ++ [u]) + wt kb metric (u :: rest) := by
            show _ = (edgeW kb metric a b + wt kb metric ((b :: xs2) ++ [u])) +
              wt kb metric (u :: rest)
            ring

theorem wt_concat {kb : KB} {metric : Metric} :
    ∀ (p : List String) (a b : String), p.getLast? = some a →
      wt kb metric (p ++ [b]) = wt kb metric p + edgeW kb metric a b := by
  intro p
  induction p with
  | nil => intro a b h; simp at h
  | cons x rest ih =>
    intro a b h
    cases rest with
    | nil =>
      simp only [List.getLast?_singleton, Option.some.injEq] at h
      subst h
      simp [wt]
    | cons y rest2 =>
      have h2 : (y :: rest2).getLast? = some a := by
        rw [List.getLast?_cons_cons] at h
        exact h
      calc wt kb metric ((x :: y :: rest2) ++ [b])
          = edgeW kb metric x y + wt kb metric ((y :: rest2) ++ [b]) := rfl
        _ = edgeW kb metric x y +
              (wt kb metric (y :: rest2) + edgeW kb metric a b) := by
            rw [ih a b h2]
        _ = wt kb metric (x :: y :: rest2) + edgeW kb metric a b := by
            show _ = (edgeW kb metric x y + wt kb metric (y :: rest2)) + edgeW kb metric a b
            ring

theorem valid_concat {kb : KB} {p : List String} {a b : String}
    (hv : ValidWalk kb p) (hl : p.getLast? = some a)
    (he : (lookupEdge kb (a, b)).isSome) : ValidWalk kb (p ++ [b]) := by
  induction p with
  | nil => simp at hl
  | cons x rest ih =>
    cases rest with
    | nil =>
      simp only [List.getLast?_singleton, Option.some.injEq] at hl
      subst hl
      simpa [ValidWalk, validWalkB] using he
    | cons y rest2 =>
      rcases valid_cons.mp hv with ⟨h1, h2⟩
      have hl2 : (y :: rest2).getLast? = some a := by
        rw [List.getLast?_cons_cons] at hl
        exact hl
      have := ih h2 hl2
      exact valid_cons.mpr ⟨h1, this⟩

theorem getLast?_append_cons {α : Type} (xs : List α) (u : α) (zs : List α) :
    (xs ++ u :: zs).getLast? = (u :: zs).getLast? := by
  have h : ((u :: zs).getLast?).isSome := by
    cases hz : (u :: zs).getLast? with
    | none =>
      rw [List.getLast?_eq_none_iff] at hz
      exact absurd hz (by simp)
    | some x => rfl
  rcases Option.isSome_iff_exists.mp h with ⟨x, hx⟩
  rw [List.getLast?_append, hx]
  rfl

theorem exists_dup_decomp {α : Type} :
    ∀ (l : List α), ¬ l.Nodup →
      ∃ (xs : List α) (u : α) (ys zs : List α), l = xs ++ u :: ys ++ u :: zs := by
  intro l
  induction l with
  | nil => intro h; exact absurd List.nodup_nil h
  | cons a t ih =>
    intro h
    by_cases ha : a ∈ t
    · rcases List.append_of_mem ha with ⟨ys, zs, rfl⟩
      exact ⟨[], a, ys, zs, rfl⟩
    · have hnd : ¬ t.Nodup := fun hnd => h (List.nodup_cons.mpr ⟨ha, hnd⟩)
      rcases ih hnd with ⟨xs, u, ys, zs, rfl⟩
      exact ⟨a :: xs, u, ys, zs, rfl⟩

/-- Cutting loops: every valid walk admits a duplicate-free walk with the same
endpoints, no larger weight (for non-negative weights), and nodes drawn from
the original walk. -/
theorem deloop {kb : KB} {metric : Metric}
    (hnn : ∀ e ∈ kb, 0 ≤ Props.get e.2 metric) :
    ∀ (n : Nat) (W : List String), W.length ≤ n → ValidWalk kb W →
      ∃ P : List String, P.Nodup ∧ ValidWalk kb P ∧ P.head? = W.head? ∧
        P.getLast? = W.getLast? ∧ wt kb metric P ≤ wt kb metric W ∧
        ∀ x ∈ P, x ∈ W := by
  intro n
  induction n with
  | zero =>
    intro W hlen hW
    have hW0 : W = [] := List.length_eq_zero.mp (Nat.le_zero.mp hlen)
    subst hW0
    exact ⟨[], List.nodup_nil, rfl, rfl, rfl, le_refl _, by simp⟩
  | succ n ih =>
    intro W hlen hW
    by_cases hnd : W.Nodup
    · exact ⟨W, hnd, hW, rfl, rfl, le_refl _, fun x hx => hx⟩
    · rcases exists_dup_decomp W hnd with ⟨xs, u, ys, zs, rfl⟩
      have hW2 : ValidWalk kb ((xs ++ u :: ys) ++ u :: zs) := hW
      have hsplit1 := valid_append_iff.mp hW2
      have hassoc : (xs ++ u :: ys) ++ [u] = xs ++ u :: (ys ++ [u]) := by
        simp
      have hfirst : ValidWalk kb (xs ++ u :: (ys ++ [u])) := by
        rw [← hassoc]
        exact hsplit1.1
      have hsplit2 := valid_append_iff.mp hfirst
      have hvalid' : ValidWalk kb (xs ++ u :: zs) :=
        valid_append_iff.mpr ⟨hsplit2.1, hsplit1.2⟩
      have hwt' : wt kb metric (xs ++ u :: zs) ≤
          wt kb metric ((xs ++ u :: ys) ++ u :: zs) := by
        have e1 : wt kb metric ((xs ++ u :: ys) ++ u :: zs) =
            wt kb metric ((xs ++ u :: ys) ++ [u]) + wt kb metric (u :: zs) :=
          wt_append kb metric (xs ++ u :: ys) u zs
        have e2 : wt kb metric (xs ++ u :: (ys ++ [u])) =
            wt kb metric (xs ++ [u]) + wt kb metric (u :: (ys ++ [u])) :=
          wt_append kb metric xs u (ys ++ [u])
        have e3 : wt kb metric (xs ++ u :: zs) =
            wt kb metric (xs ++ [u]) + wt kb metric (u :: zs) :=
          wt_append kb metric xs u zs
        have hpos : 0 ≤ wt kb metric (u :: (ys ++ [u])) :=
          wt_nonneg hnn _ hsplit2.2
        rw [e1, hassoc, e2, e3]
        linarith
      have hlen' : (xs ++ u :: zs).length ≤ n := by
        have hfull : ((xs ++ u :: ys) ++ u :: zs).length ≤ n + 1 := hlen
        simp only [List.length_append, List.length_cons] at hfull ⊢
        omega
      rcases ih (xs ++ u :: zs) hlen' hvalid' with ⟨P, h1, h2, h3, h4, h5, h6⟩
      refine ⟨P, h1, h2, ?_, ?_, le_trans h5 hwt', ?_⟩
      · rw [h3]
        cases xs with
        | nil => simp
        | cons a xs2 => simp
      · rw [h4]
        rw [getLast?_append_cons xs u zs]
        rw [show ((xs ++ u :: ys) ++ u :: zs) = (xs ++ u :: ys) ++ u :: zs from rfl,
          getLast?_append_cons (xs ++ u :: ys) u zs]
      · intro x hx
        have hx2 := h6 x hx
        simp only [List.mem_append, List.mem_cons] at hx2 ⊢
        tauto

theorem walk_tail_mem_nodes (kb : KB) :
    ∀ (rest : List String) (a : String), ValidWalk kb (a :: rest) →
      ∀ x ∈ rest, x ∈ nodesOf kb := by
  intro rest
  induction rest with
  | nil => intro a _ x hx; simp at hx
  | cons b rest2 ih =>
    intro a h x hx
    rcases valid_cons.mp h with ⟨h1, h2⟩
    rcases List.mem_cons.mp hx with h3 | h3
    · subst h3
      rcases Option.isSome_iff_exists.mp h1 with ⟨q, hq⟩
      have hm := lookupEdge_mem hq
      unfold nodesOf
      exact List.mem_append.mpr (Or.inr (List.mem_map.mpr ⟨((a, x), q), hm, rfl⟩))
    · exact ih b h2 x h3

theorem walk_mem_ground {kb : KB} {W : List String} {s : String}
    (hW : ValidWalk kb W) (hh : W.head? = some s) :
    ∀ x ∈ W, x ∈ s :: nodesOf kb := by
  cases W with
  | nil => simp at hh
  | cons a rest =>
    simp only [List.head?_cons, Option.some.injEq] at hh
    subst hh
    intro x hx
    rcases List.mem_cons.mp hx with h3 | h3
    · exact h3 ▸ List.mem_cons_self _ _
    · exact List.mem_cons_of_mem _ (walk_tail_mem_nodes kb rest a hW x h3)

theorem nodup_mem_candidates {kb : KB} {start : String} {P : List String}
    (hnd : P.Nodup) (hsub : ∀ x ∈ P, x ∈ start :: nodesOf kb) :
    P ∈ candidatePaths kb start := by
  have hsub' : P ⊆ (start :: nodesOf kb).dedup := by
    intro x hx
    exact List.mem_dedup.mpr (hsub x hx)
  rcases hnd.subperm hsub' with ⟨l, hperm, hsl⟩
  apply mem_flatAll.mpr
  exact ⟨l.permutations,
    List.mem_map.mpr ⟨l, List.mem_sublists.mpr hsl, rfl⟩,
    List.mem_permutations.mpr hperm.symm⟩

theorem isWalkFromTo_iff {kb : KB} {s g : String} {p : List String} :
    isWalkFromTo kb s g p = true ↔
      ValidWalk kb p ∧ p.head? = some s ∧ p.getLast? = some g := by
  simp [isWalkFromTo, ValidWalk, Bool.and_eq_true, and_assoc]

/-- Any valid walk between two nodes witnesses connectivity (by cutting loops). -/
theorem walk_connected {kb : KB} {metric : Metric}
    (hnn : ∀ e ∈ kb, 0 ≤ Props.get e.2 metric) {W : List String} {s g : String}
    (hW : ValidWalk kb W) (hh : W.head? = some s) (hl : W.getLast? = some g) :
    Connected kb s g := by
  rcases deloop hnn W.length W (le_refl _) hW with ⟨P, h1, h2, h3, h4, h5, h6⟩
  refine ⟨P, nodup_mem_candidates h1 ?_, isWalkFromTo_iff.mpr ⟨h2, ?_, ?_⟩⟩
  · intro x hx
    exact walk_mem_ground hW hh x (h6 x hx)
  · rw [h3, hh]
  · rw [h4, hl]

theorem min?_spec {l : List ℚ} {a : ℚ} (h1 : a ∈ l) (h2 : ∀ b ∈ l, a ≤ b) :
    l.min? = some a := by
  haveI anti : Std.Antisymm ((· : ℚ) ≤ ·) := ⟨fun h h' => le_antisymm h h'⟩
  exact (List.min?_eq_some_iff (fun x => le_refl x) (fun x y => min_choice x y)
    (fun x y z => le_min_iff)).mpr ⟨h1, h2⟩

/-! ## Heap and visited-map lemmas -/

theorem popMin_eq_none {l : List Entry} : popMin l = none ↔ l = [] := by
  cases l with
  | nil => simp [popMin]
  | cons a rest =>
    simp only [popMin]
    cases popMin rest with
    | none => simp
    | some ml =>
      obtain ⟨m, rest'⟩ := ml
      by_cases h : entryLtB m a = true
      · simp [h]
      · simp [h]

theorem popMin_perm : ∀ {l : List Entry} {e : Entry} {l' : List Entry},
    popMin l = some (e, l') → l.Perm (e :: l') := by
  intro l
  induction l with
  | nil => intro e l' h; simp [popMin] at h
  | cons a rest ih =>
    intro e l' h
    cases h2 : popMin rest with
    | none =>
      simp only [popMin, h2] at h
      have h3 : rest = [] := popMin_eq_none.mp h2
      subst h3
      simp only [Option.some.injEq, Prod.mk.injEq] at h
      obtain ⟨rfl, rfl⟩ := h
      exact List.Perm.refl _
    | some ml =>
      obtain ⟨m, rest'⟩ := ml
      simp only [popMin, h2] at h
      have hperm := ih h2
      by_cases hlt : entryLtB m a = true
      · rw [if_pos hlt] at h
        simp only [Option.some.injEq, Prod.mk.injEq] at h
        obtain ⟨rfl, rfl⟩ := h
        exact (hperm.cons a).trans (List.Perm.swap _ _ _)
      · rw [if_neg hlt] at h
        simp only [Option.some.injEq, Prod.mk.injEq] at h
        obtain ⟨rfl, rfl⟩ := h
        exact List.Perm.refl _

theorem entryLtB_acc_le {x y : Entry} (h : entryLtB x y = true) : x.acc ≤ y.acc := by
  unfold entryLtB at h
  by_cases h1 : x.acc < y.acc
  · exact le_of_lt h1
  · rw [if_neg h1] at h
    by_cases h2 : y.acc < x.acc
    · rw [if_pos h2] at h
      exact absurd h (by simp)
    · exact le_of_not_lt h2

theorem entryLtB_acc_ge {x y : Entry} (h : entryLtB x y = false) : y.acc ≤ x.acc := by
  unfold entryLtB at h
  by_cases h1 : x.acc < y.acc
  · rw [if_pos h1] at h
    exact absurd h (by simp)
  · exact le_of_not_lt h1

theorem popMin_min : ∀ {l : List Entry} {e : Entry} {l' : List Entry},
    popMin l = some (e, l') → ∀ x ∈ l, e.acc ≤ x.acc := by
  intro l
  induction l with
  | nil => intro e l' h; simp [popMin] at h
  | cons a rest ih =>
    intro e l' h x hx
    cases h2 : popMin rest with
    | none =>
      simp only [popMin, h2] at h
      have h3 : rest = [] := popMin_eq_none.mp h2
      subst h3
      simp only [Option.some.injEq, Prod.mk.injEq] at h
      obtain ⟨rfl, rfl⟩ := h
      rcases List.mem_cons.mp hx with rfl | h4
      · exact le_refl _
      · simp at h4
    | some ml =>
      obtain ⟨m, rest'⟩ := ml
      simp only [popMin, h2] at h
      by_cases hlt : entryLtB m a = true
      · rw [if_pos hlt] at h
        simp only [Option.some.injEq, Prod.mk.injEq] at h
        obtain ⟨rfl, rfl⟩ := h
        rcases List.mem_cons.mp hx with rfl | h4
        · exact entryLtB_acc_le hlt
        · exact ih h2 x h4
      · rw [if_neg hlt] at h
        simp only [Option.some.injEq, Prod.mk.injEq] at h
        obtain ⟨rfl, rfl⟩ := h
        rcases List.mem_cons.mp hx with rfl | h4
        · exact le_refl _
        · exact le_trans (entryLtB_acc_ge (by simpa using hlt)) (ih h2 x h4)

theorem lookupV_insertV_self (vis : Visited) (k : VKey) (v : ℚ) :
    lookupV (insertV vis k v) k = some v := by
  induction vis with
  | nil => simp [insertV, lookupV]
  | cons e rest ih =>
    by_cases h : e.1 = k
    · simp [insertV, h, lookupV]
    · simpa [insertV, h, lookupV] using ih

theorem lookupV_insertV_ne (vis : Visited) (k k' : VKey) (v : ℚ) (h : k' ≠ k) :
    lookupV (insertV vis k v) k' = lookupV vis k' := by
  induction vis with
  | nil => simp [insertV, lookupV, Ne.symm h]
  | cons e rest ih =>
    by_cases he : e.1 = k
    · subst he
      simp [insertV, lookupV, Ne.symm h]
    · simp only [insertV, he, if_false, lookupV]
      by_cases he' : e.1 = k'
      · simp [he']
      · simp [he', ih]

theorem lookupV_eq_none_iff {vis : Visited} {k : VKey} :
    lookupV vis k = none ↔ k ∉ vis.map Prod.fst := by
  induction vis with
  | nil => simp [lookupV]
  | cons e rest ih =>
    by_cases h : e.1 = k
    · simp [lookupV, h]
    · simp [lookupV, h, ih, Ne.symm h]

theorem insertV_keys_of_not_mem (vis : Visited) (k : VKey) (v : ℚ)
    (h : lookupV vis k = none) :
    (insertV vis k v).map Prod.fst = vis.map Prod.fst ++ [k] := by
  induction vis with
  | nil => simp [insertV]
  | cons e rest ih =>
    by_cases he : e.1 = k
    · exfalso
      rw [lookupV_eq_none_iff] at h
      exact h (List.mem_map.mpr ⟨e, List.mem_cons_self _ _, he⟩)
    · have h2 : lookupV rest k = none := by
        simpa [lookupV, he] using h
      simp [insertV, he, ih h2]

/-! ## Search invariants -/

/-- Nodes a queue entry can carry: the known nodes plus the start node. -/
def keyNodes (start : String) (kb : KB) : Finset String :=
  insert start (nodesOf kb).toFinset

/-- Previous-mode values a queue entry can carry. -/
def keyModes (kb : KB) : Finset (Option String) :=
  insert none ((kb.map (fun e => e.2.mode)).toFinset.image some)

/-- All possible visited-map keys. -/
def keyUniv (start : String) (kb : KB) : Finset VKey :=
  keyNodes start kb ×ˢ keyModes kb

/-- Every queue entry carries a valid walk from start ending at its node. -/
def InvPath (kb : KB) (start : String) (pq : List Entry) : Prop :=
  ∀ e ∈ pq, ValidWalk kb e.path ∧ e.path.head? = some start ∧
    e.path.getLast? = some e.node

/-- Every queue entry stays inside the finite state universe. -/
def InvUniv (kb : KB) (start : String) (pq : List Entry) : Prop :=
  ∀ e ∈ pq, e.node ∈ keyNodes start kb ∧ e.prev_mode ∈ keyModes kb

/-- Every recorded visited value is a lower bound for the whole queue. -/
def InvMono (pq : List Entry) (vis : Visited) : Prop :=
  ∀ k v, lookupV vis k = some v → ∀ e ∈ pq, v ≤ e.acc

/-- Every queue entry's accumulated value is its path's weight (penalty 0). -/
def InvAcc (kb : KB) (metric : Metric) (pq : List Entry) : Prop :=
  ∀ e ∈ pq, wt kb metric e.path = e.acc

/-- The goal node is never recorded in the visited map. -/
def InvD (goal : String) (vis : Visited) : Prop :=
  ∀ k v, lookupV vis k = some v → k.1 ≠ goal

/-- Frontier: every out-edge of a visited node is covered by a queue entry or a
visited record within the relaxed bound (penalty 0). -/
def InvE (kb : KB) (metric : Metric) (pq : List Entry) (vis : Visited) : Prop :=
  ∀ k v, lookupV vis k = some v →
    ∀ x ∈ neighbors kb k.1,
      (∃ w ∈ pq, w.node = x.1 ∧ w.acc ≤ v + Props.get x.2 metric) ∨
      (∃ pm2 v2, lookupV vis (x.1, pm2) = some v2 ∧ v2 ≤ v + Props.get x.2 metric)

/-- The start node is covered at value 0 by the queue or the visited map. -/
def InvF (start : String) (pq : List Entry) (vis : Visited) : Prop :=
  (∃ w ∈ pq, w.node = start ∧ w.acc ≤ 0) ∨
  (∃ pm v, lookupV vis (start, pm) = some v ∧ v ≤ 0)

/-- Bundle of the invariants that hold for every penalty value. -/
structure InvG (kb : KB) (start goal : String) (metric : Metric)
    (pq : List Entry) (vis : Visited) : Prop where
  wpath : InvPath kb start pq
  univ : InvUniv kb start pq
  mono : InvMono pq vis

/-- Bundle of the invariants specific to penalty-zero runs. -/
structure InvZ (kb : KB) (start goal : String) (metric : Metric)
    (pq : List Entry) (vis : Visited) : Prop where
  wacc : InvAcc kb metric pq
  noGoal : InvD goal vis
  frontier : InvE kb metric pq vis
  startCover : InvF start pq vis

theorem mem_neighbors {kb : KB} {u : String} {x : String × Props} :
    x ∈ neighbors kb u ↔ ((u, x.1), x.2) ∈ kb := by
  unfold neighbors
  rw [List.mem_filterMap]
  constructor
  · rintro ⟨e, he, hx⟩
    by_cases h : e.1.1 = u
    · rw [if_pos h] at hx
      have hx2 : (e.1.2, e.2) = x := Option.some.inj hx
      have he2 : ((u, x.1), x.2) = e := by
        rw [← hx2, ← h]
      rw [he2]
      exact he
    · rw [if_neg h] at hx
      exact absurd hx (by simp)
  · intro he
    exact ⟨((u, x.1), x.2), he, by simp⟩

theorem neighbors_edge_isSome {kb : KB} {u : String} {x : String × Props}
    (h : x ∈ neighbors kb u) : (lookupEdge kb (u, x.1)).isSome :=
  lookupEdge_isSome_of_mem (mem_neighbors.mp h)

theorem neighbors_of_lookup {kb : KB} {u b : String} {props : Props}
    (h : lookupEdge kb (u, b) = some props) : (b, props) ∈ neighbors kb u :=
  mem_neighbors.mpr (lookupEdge_mem h)

theorem neighbors_length_le (kb : KB) (u : String) :
    (neighbors kb u).length ≤ kb.length :=
  List.length_filterMap_le _ _

theorem neighbors_weight_nonneg {kb : KB} {metric : Metric}
    (hnn : ∀ e ∈ kb, 0 ≤ Props.get e.2 metric) {u : String} {x : String × Props}
    (h : x ∈ neighbors kb u) : 0 ≤ Props.get x.2 metric :=
  hnn ((u, x.1), x.2) (mem_neighbors.mp h)

theorem mem_expandPushes {kb : KB} {metric : Metric} {tp : ℚ} {e : Entry} {y : Entry} :
    y ∈ expandPushes kb metric tp e ↔
      ∃ x ∈ neighbors kb e.node,
        y = ⟨e.acc + Props.get x.2 metric +
              (if penaltyApplies e.prev_mode x.2.mode then tp else 0),
             x.1, some x.2.mode, e.path ++ [x.1]⟩ := by
  unfold expandPushes
  rw [List.mem_map]
  constructor
  · rintro ⟨x, hx, rfl⟩
    exact ⟨x, hx, rfl⟩
  · rintro ⟨x, hx, rfl⟩
    exact ⟨x, hx, rfl⟩

theorem expandPushes_length (kb : KB) (metric : Metric) (tp : ℚ) (e : Entry) :
    (expandPushes kb metric tp e).length ≤ kb.length := by
  unfold expandPushes
  rw [List.length_map]
  exact neighbors_length_le kb e.node

/-! ## Characterizing one loop iteration -/

theorem dijkstraStep_done {kb : KB} {goal : String} {metric : Metric} {tp : ℚ}
    {pq : List Entry} {vis : Visited} {r : Option (List String) × WithTop ℚ}
    (h : dijkstraStep kb goal metric tp pq vis = StepRes.done r) :
    (pq = [] ∧ r = (none, ⊤)) ∨
    (∃ e pq', popMin pq = some (e, pq') ∧ e.node = goal ∧
      r = (some e.path, (e.acc : WithTop ℚ))) := by
  unfold dijkstraStep at h
  cases hp : popMin pq with
  | none =>
    simp only [hp] at h
    injection h with h2
    exact Or.inl ⟨popMin_eq_none.mp hp, h2.symm⟩
  | some el =>
    obtain ⟨e, pq'⟩ := el
    simp only [hp] at h
    by_cases hg : e.node = goal
    · rw [if_pos hg] at h
      injection h with h2
      exact Or.inr ⟨e, pq', rfl, hg, h2.symm⟩
    · rw [if_neg hg] at h
      cases hv : lookupV vis (e.node, e.prev_mode) with
      | none =>
        simp only [hv] at h
        exact absurd h (by simp)
      | some v =>
        simp only [hv] at h
        by_cases hle : v ≤ e.acc
        · rw [if_pos hle] at h
          exact absurd h (by simp)
        · rw [if_neg hle] at h
          exact absurd h (by simp)

theorem dijkstraStep_cont {kb : KB} {goal : String} {metric : Metric} {tp : ℚ}
    {pq : List Entry} {vis : Visited} {pq2 : List Entry} {vis2 : Visited}
    (h : dijkstraStep kb goal metric tp pq vis = StepRes.cont pq2 vis2) :
    ∃ e pq', popMin pq = some (e, pq') ∧ e.node ≠ goal ∧
      ((∃ v, lookupV vis (e.node, e.prev_mode) = some v ∧ v ≤ e.acc ∧
          pq2 = pq' ∧ vis2 = vis) ∨
       (lookupV vis (e.node, e.prev_mode) = none ∨
          (∃ v, lookupV vis (e.node, e.prev_mode) = some v ∧ e.acc < v)) ∧
         pq2 = pq' ++ expandPushes kb metric tp e ∧
         vis2 = insertV vis (e.node, e.prev_mode) e.acc) := by
  unfold dijkstraStep at h
  cases hp : popMin pq with
  | none =>
    simp only [hp] at h
    exact absurd h (by simp)
  | some el =>
    obtain ⟨e, pq'⟩ := el
    simp only [hp] at h
    by_cases hg : e.node = goal
    · rw [if_pos hg] at h
      exact absurd h (by simp)
    · rw [if_neg hg] at h
      refine ⟨e, pq', rfl, hg, ?_⟩
      cases hv : lookupV vis (e.node, e.prev_mode) with
      | none =>
        simp only [hv] at h
        injection h with h2 h3
        exact Or.inr ⟨Or.inl rfl, h2.symm, h3.symm⟩
      | some v =>
        simp only [hv] at h
        by_cases hle : v ≤ e.acc
        · rw [if_pos hle] at h
          injection h with h2 h3
          exact Or.inl ⟨v, rfl, hle, h2.symm, h3.symm⟩
        · rw [if_neg hle] at h
          injection h with h2 h3
          exact Or.inr ⟨Or.inr ⟨v, rfl, lt_of_not_le hle⟩, h2.symm, h3.symm⟩

/-! ## Preservation of the general invariants, and termination -/

theorem invG_step {kb : KB} {start goal : String} {metric : Metric} {tp : ℚ}
    {pq : List Entry} {vis : Visited} {pq2 : List Entry} {vis2 : Visited}
    (hnn : ∀ e ∈ kb, 0 ≤ Props.get e.2 metric) (htp : 0 ≤ tp)
    (hI : InvG kb start goal metric pq vis)
    (h : dijkstraStep kb goal metric tp pq vis = StepRes.cont pq2 vis2) :
    InvG kb start goal metric pq2 vis2 := by
  rcases dijkstraStep_cont h with ⟨e, pq', hp, hg, hcase⟩
  have hperm := popMin_perm hp
  have hmemE : e ∈ pq := hperm.mem_iff.mpr (List.mem_cons_self _ _)
  have hsub : ∀ x ∈ pq', x ∈ pq := fun x hx =>
    hperm.mem_iff.mpr (List.mem_cons_of_mem _ hx)
  rcases hcase with ⟨v, hv, hle, rfl, rfl⟩ | ⟨hnone, rfl, rfl⟩
  · exact ⟨fun x hx => hI.wpath x (hsub x hx),
           fun x hx => hI.univ x (hsub x hx),
           fun k v0 hk x hx => hI.mono k v0 hk x (hsub x hx)⟩
  · refine ⟨?_, ?_, ?_⟩
    · intro y hy
      rcases List.mem_append.mp hy with hy1 | hy1
      · exact hI.wpath y (hsub y hy1)
      · rcases mem_expandPushes.mp hy1 with ⟨x, hx, rfl⟩
        have hPe := hI.wpath e hmemE
        refine ⟨valid_concat hPe.1 hPe.2.2 (neighbors_edge_isSome hx), ?_, ?_⟩
        · cases hpath : e.path with
          | nil =>
            have h2 := hPe.2.1
            rw [hpath] at h2
            simp at h2
          | cons a t =>
            have h2 := hPe.2.1
            rw [hpath] at h2
            simp only [List.head?_cons, Option.some.injEq] at h2
            show ((a :: t) ++ [x.1]).head? = some start
            simpa using h2
        · exact List.getLast?_concat _
    · intro y hy
      rcases List.mem_append.mp hy with hy1 | hy1
      · exact hI.univ y (hsub y hy1)
      · rcases mem_expandPushes.mp hy1 with ⟨x, hx, rfl⟩
        have hm := mem_neighbors.mp hx
        constructor
        · unfold keyNodes
          apply Finset.mem_insert_of_mem
          rw [List.mem_toFinset]
          unfold nodesOf
          exact List.mem_append.mpr (Or.inr (List.mem_map.mpr ⟨_, hm, rfl⟩))
        · unfold keyModes
          apply Finset.mem_insert_of_mem
          apply Finset.mem_image_of_mem
          rw [List.mem_toFinset]
          exact List.mem_map.mpr ⟨_, hm, rfl⟩
    · intro k v0 hk y hy
      by_cases hkey : k = (e.node, e.prev_mode)
      · subst hkey
        rw [lookupV_insertV_self] at hk
        have hv0 : v0 = e.acc := (Option.some.inj hk).symm
        subst hv0
        rcases List.mem_append.mp hy with hy1 | hy1
        · exact popMin_min hp y (hsub y hy1)
        · rcases mem_expandPushes.mp hy1 with ⟨x, hx, rfl⟩
          have h1 : 0 ≤ Props.get x.2 metric := neighbors_weight_nonneg hnn hx
          have h2 : 0 ≤ (if penaltyApplies e.prev_mode x.2.mode then tp else 0) := by
            split
            · exact htp
            · exact le_refl 0
          show e.acc ≤ e.acc + Props.get x.2 metric +
            (if penaltyApplies e.prev_mode x.2.mode then tp else 0)
          linarith
      · rw [lookupV_insertV_ne _ _ _ _ hkey] at hk
        rcases List.mem_append.mp hy with hy1 | hy1
        · exact hI.mono k v0 hk y (hsub y hy1)
        · rcases mem_expandPushes.mp hy1 with ⟨x, hx, rfl⟩
          have h0 : v0 ≤ e.acc := hI.mono k v0 hk e hmemE
          have h1 : 0 ≤ Props.get x.2 metric := neighbors_weight_nonneg hnn hx
          have h2 : 0 ≤ (if penaltyApplies e.prev_mode x.2.mode then tp else 0) := by
            split
            · exact htp
            · exact le_refl 0
          show v0 ≤ e.acc + Props.get x.2 metric +
            (if penaltyApplies e.prev_mode x.2.mode then tp else 0)
          linarith

/-- Termination measure: unvisited states weighted by the maximal push count,
plus the queue size. -/
def muM (start : String) (kb : KB) (pq : List Entry) (vis : Visited) : Nat :=
  (keyUniv start kb \ (vis.map Prod.fst).toFinset).card * (kb.length + 1) + pq.length

theorem muM_decreases {kb : KB} {start goal : String} {metric : Metric} {tp : ℚ}
    {pq : List Entry} {vis : Visited} {pq2 : List Entry} {vis2 : Visited}
    (hI : InvG kb start goal metric pq vis)
    (h : dijkstraStep kb goal metric tp pq vis = StepRes.cont pq2 vis2) :
    muM start kb pq2 vis2 < muM start kb pq vis := by
  rcases dijkstraStep_cont h with ⟨e, pq', hp, _, hcase⟩
  have hperm := popMin_perm hp
  have hmemE : e ∈ pq := hperm.mem_iff.mpr (List.mem_cons_self _ _)
  have hlen : pq.length = pq'.length + 1 := by
    have := hperm.length_eq
    simpa using this
  rcases hcase with ⟨v, hv, hle, rfl, rfl⟩ | ⟨hnone, rfl, rfl⟩
  · unfold muM
    omega
  · have hvnone : lookupV vis (e.node, e.prev_mode) = none := by
      rcases hnone with h1 | ⟨v, hv, hlt⟩
      · exact h1
      · exact absurd (hI.mono _ v hv e hmemE) (not_le.mpr hlt)
    have hkeyU : (e.node, e.prev_mode) ∈ keyUniv start kb := by
      have := hI.univ e hmemE
      exact Finset.mk_mem_product this.1 this.2
    have hkeyNot : (e.node, e.prev_mode) ∉ (vis.map Prod.fst).toFinset := by
      rw [List.mem_toFinset]
      exact lookupV_eq_none_iff.mp hvnone
    have hkeys : ((insertV vis (e.node, e.prev_mode) e.acc).map Prod.fst).toFinset =
        insert (e.node, e.prev_mode) (vis.map Prod.fst).toFinset := by
      rw [insertV_keys_of_not_mem vis _ _ hvnone]
      simp [List.toFinset_append]
      exact Finset.union_comm _ _
    have hcard : (keyUniv start kb \
        ((insertV vis (e.node, e.prev_mode) e.acc).map Prod.fst).toFinset).card + 1 =
        (keyUniv start kb \ (vis.map Prod.fst).toFinset).card := by
      rw [hkeys, Finset.sdiff_insert, Finset.card_erase_of_mem
        (Finset.mem_sdiff.mpr ⟨hkeyU, hkeyNot⟩)]
      have hpos : 0 < (keyUniv start kb \ (vis.map Prod.fst).toFinset).card :=
        Finset.card_pos.mpr ⟨_, Finset.mem_sdiff.mpr ⟨hkeyU, hkeyNot⟩⟩
      omega
    have hpl : (pq' ++ expandPushes kb metric tp e).length ≤ pq'.length + kb.length := by
      rw [List.length_append]
      have := expandPushes_length kb metric tp e
      omega
    unfold muM
    set c2 := (keyUniv start kb \
      ((insertV vis (e.node, e.prev_mode) e.acc).map Prod.fst).toFinset).card
    set c1 := (keyUniv start kb \ (vis.map Prod.fst).toFinset).card
    have hmul : c1 * (kb.length + 1) = c2 * (kb.length + 1) + (kb.length + 1) := by
      rw [← hcard]
      ring
    omega

/-- The loop terminates within the measure and, when it reports a route, the
start and goal are connected. -/
theorem loop_some {kb : KB} {start goal : String} {metric : Metric} {tp : ℚ}
    (hnn : ∀ e ∈ kb, 0 ≤ Props.get e.2 metric) (htp : 0 ≤ tp) :
    ∀ (fuel : Nat) (pq : List Entry) (vis : Visited),
      InvG kb start goal metric pq vis → muM start kb pq vis < fuel →
      ∃ r, dijkstraLoop kb goal metric tp fuel pq vis = some r ∧
        (r = (none, ⊤) ∨ Connected kb start goal) := by
  intro fuel
  induction fuel with
  | zero => intro pq vis _ hmu; omega
  | succ n ih =>
    intro pq vis hI hmu
    cases hs : dijkstraStep kb goal metric tp pq vis with
    | done r =>
      refine ⟨r, by simp [dijkstraLoop, hs], ?_⟩
      rcases dijkstraStep_done hs with ⟨_, rfl⟩ | ⟨e, pq', hp, hg, rfl⟩
      · exact Or.inl rfl
      · right
        have hmemE : e ∈ pq := (popMin_perm hp).mem_iff.mpr (List.mem_cons_self _ _)
        have hPe := hI.wpath e hmemE
        exact walk_connected hnn hPe.1 hPe.2.1 (hg ▸ hPe.2.2)
    | cont pq2 vis2 =>
      have hI2 := invG_step hnn htp hI hs
      have hmu2 := muM_decreases hI hs
      rcases ih pq2 vis2 hI2 (by omega) with ⟨r, hr, hc⟩
      exact ⟨r, by simp [dijkstraLoop, hs, hr], hc⟩

/-! ## Preservation of the penalty-zero invariants -/

theorem invZ_step {kb : KB} {start goal : String} {metric : Metric}
    {pq : List Entry} {vis : Visited} {pq2 : List Entry} {vis2 : Visited}
    (hnd : NodupKeys kb)
    (hG : InvG kb start goal metric pq vis)
    (hZ : InvZ kb start goal metric pq vis)
    (h : dijkstraStep kb goal metric 0 pq vis = StepRes.cont pq2 vis2) :
    InvZ kb start goal metric pq2 vis2 := by
  rcases dijkstraStep_cont h with ⟨e, pq', hp, hg, hcase⟩
  have hperm := popMin_perm hp
  have hmemE : e ∈ pq := hperm.mem_iff.mpr (List.mem_cons_self _ _)
  have hsub : ∀ x ∈ pq', x ∈ pq := fun x hx =>
    hperm.mem_iff.mpr (List.mem_cons_of_mem _ hx)
  have hall : ∀ x ∈ pq, x ∈ pq' ∨ x = e := by
    intro x hx
    rcases List.mem_cons.mp (hperm.mem_iff.mp hx) with h1 | h1
    · exact Or.inr h1
    · exact Or.inl h1
  rcases hcase with ⟨v, hv, hle, rfl, rfl⟩ | ⟨hnone, rfl, rfl⟩
  · refine ⟨fun x hx => hZ.wacc x (hsub x hx), hZ.noGoal, ?_, ?_⟩
    · intro k v0 hk x hx
      rcases hZ.frontier k v0 hk x hx with ⟨w, hw, hwn, hwa⟩ | hviscase
      · rcases hall w hw with h1 | rfl
        · exact Or.inl ⟨w, h1, hwn, hwa⟩
        · right
          refine ⟨w.prev_mode, v, ?_, le_trans hle hwa⟩
          rw [← hwn]
          exact hv
      · exact Or.inr hviscase
    · rcases hZ.startCover with ⟨w, hw, hwn, hwa⟩ | hviscase
      · rcases hall w hw with h1 | rfl
        · exact Or.inl ⟨w, h1, hwn, hwa⟩
        · right
          refine ⟨w.prev_mode, v, ?_, le_trans hle hwa⟩
          rw [hwn] at hv
          exact hv
      · exact Or.inr hviscase
  · have hlt : ∀ v, lookupV vis (e.node, e.prev_mode) = some v → e.acc < v := by
      intro v hv
      rcases hnone with h1 | ⟨v2, hv2, hlt2⟩
      · rw [h1] at hv
        exact absurd hv (by simp)
      · rw [hv2] at hv
        exact (Option.some.inj hv) ▸ hlt2
    refine ⟨?_, ?_, ?_, ?_⟩
    · intro y hy
      rcases List.mem_append.mp hy with hy1 | hy1
      · exact hZ.wacc y (hsub y hy1)
      · rcases mem_expandPushes.mp hy1 with ⟨x, hx, rfl⟩
        have hPe := hG.wpath e hmemE
        have hlook : lookupEdge kb (e.node, x.1) = some x.2 :=
          lookupEdge_eq_some_of_mem_of_nodup hnd (mem_neighbors.mp hx)
        show wt kb metric (e.path ++ [x.1]) = _
        rw [wt_concat e.path e.node x.1 hPe.2.2, edgeW_eq hlook,
          hZ.wacc e hmemE, ite_self, add_zero]
    · intro k v0 hk
      by_cases hkey : k = (e.node, e.prev_mode)
      · subst hkey
        exact hg
      · rw [lookupV_insertV_ne _ _ _ _ hkey] at hk
        exact hZ.noGoal k v0 hk
    · intro k v0 hk x hx
      by_cases hkey : k = (e.node, e.prev_mode)
      · subst hkey
        rw [lookupV_insertV_self] at hk
        have hv0 : v0 = e.acc := (Option.some.inj hk).symm
        subst hv0
        left
        refine ⟨⟨e.acc + Props.get x.2 metric +
            (if penaltyApplies e.prev_mode x.2.mode then 0 else 0),
            x.1, some x.2.mode, e.path ++ [x.1]⟩, ?_, rfl, ?_⟩
        · exact List.mem_append.mpr (Or.inr (mem_expandPushes.mpr ⟨x, hx, rfl⟩))
        · show e.acc + Props.get x.2 metric + _ ≤ e.acc + Props.get x.2 metric
          rw [ite_self, add_zero]
      · rw [lookupV_insertV_ne _ _ _ _ hkey] at hk
        rcases hZ.frontier k v0 hk x hx with ⟨w, hw, hwn, hwa⟩ | ⟨pm2, v2, hv2, hb2⟩
        · rcases hall w hw with h1 | rfl
          · exact Or.inl ⟨w, List.mem_append.mpr (Or.inl h1), hwn, hwa⟩
          · right
            refine ⟨w.prev_mode, w.acc, ?_, hwa⟩
            have hk2 : (x.1, w.prev_mode) = (w.node, w.prev_mode) := by rw [hwn]
            rw [hk2, lookupV_insertV_self]
        · by_cases hkey2 : (x.1, pm2) = (e.node, e.prev_mode)
          · right
            refine ⟨pm2, e.acc, ?_, ?_⟩
            · rw [hkey2, lookupV_insertV_self]
            · have h3 := hlt v2 (by rw [← hkey2]; exact hv2)
              exact le_trans (le_of_lt h3) hb2
          · right
            refine ⟨pm2, v2, ?_, hb2⟩
            rw [lookupV_insertV_ne _ _ _ _ hkey2]
            exact hv2
    · rcases hZ.startCover with ⟨w, hw, hwn, hwa⟩ | ⟨pm, v, hv, hb⟩
      · rcases hall w hw with h1 | rfl
        · exact Or.inl ⟨w, List.mem_append.mpr (Or.inl h1), hwn, hwa⟩
        · right
          refine ⟨w.prev_mode, w.acc, ?_, hwa⟩
          have hk2 : (start, w.prev_mode) = (w.node, w.prev_mode) := by rw [hwn]
          rw [hk2, lookupV_insertV_self]
      · by_cases hkey2 : ((start, pm) : VKey) = (e.node, e.prev_mode)
        · right
          refine ⟨pm, e.acc, ?_, ?_⟩
          · rw [hkey2, lookupV_insertV_self]
          · have h3 := hlt v (by rw [← hkey2]; exact hv)
            exact le_trans (le_of_lt h3) hb
        · right
          refine ⟨pm, v, ?_, hb⟩
          rw [lookupV_insertV_ne _ _ _ _ hkey2]
          exact hv

/-! ## The chase lemma: every walk to the goal is covered by the queue -/

theorem chase_core {kb : KB} {goal : String} {metric : Metric}
    (hnn : ∀ e ∈ kb, 0 ≤ Props.get e.2 metric)
    {pq : List Entry} {vis : Visited}
    (hE : InvE kb metric pq vis) (hD : InvD goal vis) :
    ∀ (S : List String) (u : String), ValidWalk kb (u :: S) →
      (u :: S).getLast? = some goal →
      ∀ B : ℚ, (∃ pm v, lookupV vis (u, pm) = some v ∧ v ≤ B) →
      ∃ x ∈ pq, x.acc ≤ B + wt kb metric (u :: S) := by
  intro S
  induction S with
  | nil =>
    rintro u _ hlast B ⟨pm, v, hv, _⟩
    exfalso
    simp only [List.getLast?_singleton, Option.some.injEq] at hlast
    exact hD (u, pm) v hv (by simpa using hlast)
  | cons b S2 ih =>
    rintro u hW hlast B ⟨pm, v, hv, hvB⟩
    rcases valid_cons.mp hW with ⟨h1, h2⟩
    rcases Option.isSome_iff_exists.mp h1 with ⟨props, hprops⟩
    have hxnb : (b, props) ∈ neighbors kb u := neighbors_of_lookup hprops
    have hwS : wt kb metric (u :: b :: S2) =
        Props.get props metric + wt kb metric (b :: S2) := by
      show edgeW kb metric u b + wt kb metric (b :: S2) = _
      rw [edgeW_eq hprops]
    have hrest0 : 0 ≤ wt kb metric (b :: S2) := wt_nonneg hnn _ h2
    rcases hE (u, pm) v hv (b, props) hxnb with ⟨w, hw, hwn, hwa⟩ | ⟨pm2, v2, hv2, hb2⟩
    · refine ⟨w, hw, ?_⟩
      rw [hwS]
      have hwa2 : w.acc ≤ v + Props.get props metric := hwa
      linarith
    · have hlast2 : (b :: S2).getLast? = some goal := by
        rw [List.getLast?_cons_cons] at hlast
        exact hlast
      have hb2' : v2 ≤ B + Props.get props metric := by
        have h3 : v2 ≤ v + Props.get props metric := hb2
        linarith
      rcases ih b h2 hlast2 (B + Props.get props metric) ⟨pm2, v2, hv2, hb2'⟩
        with ⟨x, hx, hxa⟩
      refine ⟨x, hx, ?_⟩
      rw [hwS]
      linarith

theorem chase {kb : KB} {start goal : String} {metric : Metric}
    (hnn : ∀ e ∈ kb, 0 ≤ Props.get e.2 metric)
    {pq : List Entry} {vis : Visited}
    (hE : InvE kb metric pq vis) (hD : InvD goal vis) (hF : InvF start pq vis)
    {W : List String} (hW : ValidWalk kb W) (hh : W.head? = some start)
    (hl : W.getLast? = some goal) :
    ∃ x ∈ pq, x.acc ≤ wt kb metric W := by
  cases W with
  | nil => simp at hh
  | cons u S =>
    simp only [List.head?_cons, Option.some.injEq] at hh
    subst hh
    rcases hF with ⟨w, hw, hwn, hwa⟩ | ⟨pm, v, hv, hvB⟩
    · exact ⟨w, hw, le_trans hwa (wt_nonneg hnn _ hW)⟩
    · rcases chase_core hnn hE hD S u hW hl 0 ⟨pm, v, hv, hvB⟩ with ⟨x, hx, hxa⟩
      refine ⟨x, hx, ?_⟩
      linarith

/-! ## Partial correctness of penalty-zero runs -/

theorem loopZ {kb : KB} {start goal : String} {metric : Metric}
    (hnd : NodupKeys kb) (hnn : ∀ e ∈ kb, 0 ≤ Props.get e.2 metric) :
    ∀ (fuel : Nat) (pq : List Entry) (vis : Visited),
      InvG kb start goal metric pq vis → InvZ kb start goal metric pq vis →
      ∀ r, dijkstraLoop kb goal metric 0 fuel pq vis = some r →
      Connected kb start goal →
      ∃ p t, r = (some p, ((t : ℚ) : WithTop ℚ)) ∧
        shortestDist kb start goal metric = some t := by
  intro fuel
  induction fuel with
  | zero =>
    intro pq vis _ _ r hr _
    simp [dijkstraLoop] at hr
  | succ n ih =>
    intro pq vis hG hZ r hr hconn
    cases hs : dijkstraStep kb goal metric 0 pq vis with
    | done r2 =>
      have hr2 : r2 = r := by
        simp only [dijkstraLoop, hs, Option.some.injEq] at hr
        exact hr
      subst hr2
      rcases dijkstraStep_done hs with ⟨hpq, rfl⟩ | ⟨e, pq', hp, hg, rfl⟩
      · exfalso
        rcases hconn with ⟨P, hPc, hPw⟩
        rcases isWalkFromTo_iff.mp hPw with ⟨h1, h2, h3⟩
        rcases chase hnn hZ.frontier hZ.noGoal hZ.startCover h1 h2 h3 with ⟨x, hx, _⟩
        rw [hpq] at hx
        simp at hx
      · have hmemE : e ∈ pq := (popMin_perm hp).mem_iff.mpr (List.mem_cons_self _ _)
        refine ⟨e.path, e.acc, rfl, ?_⟩
        have hub : ∀ q ∈ ((candidatePaths kb start).filter
            (isWalkFromTo kb start goal)).map (wt kb metric), e.acc ≤ q := by
          intro q hq
          rcases List.mem_map.mp hq with ⟨P, hPf, rfl⟩
          rcases List.mem_filter.mp hPf with ⟨hPc, hPw⟩
          rcases isWalkFromTo_iff.mp hPw with ⟨h1, h2, h3⟩
          rcases chase hnn hZ.frontier hZ.noGoal hZ.startCover h1 h2 h3
            with ⟨x, hx, hxa⟩
          exact le_trans (popMin_min hp x hx) hxa
        have hPe := hG.wpath e hmemE
        have hacc := hZ.wacc e hmemE
        rcases deloop hnn e.path.length e.path (le_refl _) hPe.1
          with ⟨P, hp1, hp2, hp3, hp4, hp5, hp6⟩
        have hPc : P ∈ candidatePaths kb start :=
          nodup_mem_candidates hp1
            (fun x hx => walk_mem_ground hPe.1 hPe.2.1 x (hp6 x hx))
        have hPw : isWalkFromTo kb start goal P = true :=
          isWalkFromTo_iff.mpr ⟨hp2, by rw [hp3, hPe.2.1], by rw [hp4, hPe.2.2, hg]⟩
        have hPmem : wt kb metric P ∈ ((candidatePaths kb start).filter
            (isWalkFromTo kb start goal)).map (wt kb metric) :=
          List.mem_map.mpr ⟨P, List.mem_filter.mpr ⟨hPc, hPw⟩, rfl⟩
        have hPle : wt kb metric P ≤ e.acc := by
          rw [← hacc]
          exact hp5
        have hPeq : wt kb metric P = e.acc := le_antisymm hPle (hub _ hPmem)
        unfold shortestDist
        exact min?_spec (hPeq ▸ hPmem) hub
    | cont pq2 vis2 =>
      have hG2 := invG_step hnn (le_refl 0) hG hs
      have hZ2 := invZ_step hnd hG hZ hs
      have hr2 : dijkstraLoop kb goal metric 0 n pq2 vis2 = some r := by
        simpa only [dijkstraLoop, hs] using hr
      exact ih pq2 vis2 hG2 hZ2 r hr2 hconn

/-! ## Initial state -/

theorem invG_init (kb : KB) (start goal : String) (metric : Metric) :
    InvG kb start goal metric [⟨0, start, none, [start]⟩] [] := by
  refine ⟨?_, ?_, ?_⟩
  · intro e he
    simp only [List.mem_singleton] at he
    subst he
    exact ⟨valid_single, rfl, rfl⟩
  · intro e he
    simp only [List.mem_singleton] at he
    subst he
    exact ⟨Finset.mem_insert_self _ _, Finset.mem_insert_self _ _⟩
  · intro k v hk
    simp [lookupV] at hk

theorem invZ_init (kb : KB) (start goal : String) (metric : Metric) :
    InvZ kb start goal metric [⟨0, start, none, [start]⟩] [] := by
  refine ⟨?_, ?_, ?_, ?_⟩
  · intro e he
    simp only [List.mem_singleton] at he
    subst he
    rfl
  · intro k v hk
    simp [lookupV] at hk
  · intro k v hk
    simp [lookupV] at hk
  · exact Or.inl ⟨⟨0, start, none, [start]⟩, List.mem_singleton_self _, rfl, le_refl 0⟩

theorem dijkstraFuel_big (kb : KB) (start : String) :
    muM start kb [⟨0, start, none, [start]⟩] [] < dijkstraFuel kb := by
  unfold muM dijkstraFuel
  have hkn : (keyNodes start kb).card ≤ 2 * kb.length + 1 := by
    unfold keyNodes
    refine le_trans (Finset.card_insert_le _ _) ?_
    have h1 : (nodesOf kb).toFinset.card ≤ (nodesOf kb).length :=
      List.toFinset_card_le _
    have h2 : (nodesOf kb).length = 2 * kb.length := by
      unfold nodesOf
      simp [List.length_append, List.length_map]
      omega
    omega
  have hkm : (keyModes kb).card ≤ kb.length + 1 := by
    unfold keyModes
    refine le_trans (Finset.card_insert_le _ _) ?_
    have h1 := Finset.card_image_le
      (s := (kb.map (fun e => e.2.mode)).toFinset) (f := some)
    have h2 : (kb.map (fun e => e.2.mode)).toFinset.card ≤ kb.length := by
      refine le_trans (List.toFinset_card_le _) ?_
      simp [List.length_map]
    omega
  have hU : (keyUniv start kb \ (([] : Visited).map Prod.fst).toFinset).card ≤
      (2 * kb.length + 1) * (kb.length + 1) := by
    have h0 : (([] : Visited).map Prod.fst).toFinset = ∅ := rfl
    rw [h0, Finset.sdiff_empty]
    unfold keyUniv
    rw [Finset.card_product]
    exact Nat.mul_le_mul hkn hkm
  have hlen : ([⟨0, start, none, [start]⟩] : List Entry).length = 1 := rfl
  rw [hlen]
  have hmul : (keyUniv start kb \ (([] : Visited).map Prod.fst).toFinset).card *
      (kb.length + 1) ≤ (2 * kb.length + 1) * (kb.length + 1) * (kb.length + 1) :=
    Nat.mul_le_mul_right _ hU
  omega

/-- A mirror of the search loop that threads the knowledge base through every
iteration and returns it together with the result, witnessing that no branch of
the loop ever produces a modified knowledge base. -/
def dijkstraLoopFrame (kb : KB) (goal : String) (metric : Metric) (tp : ℚ) :
    Nat → List Entry → Visited → Option (Option (List String) × WithTop ℚ) × KB
  | 0, _, _ => (none, kb)
  | fuel + 1, pq, visited =>
    match dijkstraStep kb goal metric tp pq visited with
    | StepRes.done r => (some r, kb)
    | StepRes.cont pq2 vis2 => dijkstraLoopFrame kb goal metric tp fuel pq2 vis2

/-- The search, state-passing form: result together with the final edge mapping. -/
def dijkstraFrame (kb : KB) (start goal : String) (metric : Metric)
    (transfer_penalty : ℚ) : Option (Option (List String) × WithTop ℚ) × KB :=
  dijkstraLoopFrame kb goal metric transfer_penalty (dijkstraFuel kb)
    [⟨0, start, none, [start]⟩] []

theorem dijkstraLoopFrame_spec (kb : KB) (goal : String) (metric : Metric) (tp : ℚ) :
    ∀ fuel pq visited,
      dijkstraLoopFrame kb goal metric tp fuel pq visited =
        (dijkstraLoop kb goal metric tp fuel pq visited, kb) := by
  intro fuel
  induction fuel with
  | zero => intro pq visited; rfl
  | succ n ih =>
    intro pq visited
    simp only [dijkstraLoopFrame, dijkstraLoop]
    cases dijkstraStep kb goal metric tp pq visited with
    | done r => rfl
    | cont pq2 vis2 => exact ih pq2 vis2

/-! ## Claim theorems: C1, C9, C10 -/

/-- C1: on the seeded example network (after the symmetry and transfer rules),
`dijkstra(kb, "A", "D", metric="time", transfer_penalty=2.0)` returns exactly
the path A, B, C, D with accumulated total 12. -/
theorem claim_C1_seed_route :
    dijkstra exampleKB "A" "D" Metric.time 2 =
      some (some ["A", "B", "C", "D"], ((12 : ℚ) : WithTop ℚ)) := by
  with_unfolding_all decide

/-- C9: the search never mutates the knowledge base: the state-passing form of
the loop returns the edge mapping unchanged, for every input, and computes the
same result as `dijkstra`. -/
theorem claim_C9_frame :
    ∀ kb start goal metric tp,
      (dijkstraFrame kb start goal metric tp).2 = kb ∧
      (dijkstraFrame kb start goal metric tp).1 = dijkstra kb start goal metric tp := by
  intro kb start goal metric tp
  unfold dijkstraFrame dijkstra
  rw [dijkstraLoopFrame_spec]
  exact ⟨rfl, rfl⟩

/-- C10: querying a node against itself returns the single-node path with total
0, for every knowledge base (including ones not mentioning the node), and the
result does not depend on the edge mapping at all. -/
theorem claim_C10_self_query :
    (∀ kb s metric tp, dijkstra kb s s metric tp =
        some (some [s], ((0 : ℚ) : WithTop ℚ))) ∧
    (∀ kb kb2 s metric tp,
        dijkstra kb s s metric tp = dijkstra kb2 s s metric tp) := by
  have h : ∀ kb s metric tp, dijkstra (kb : KB) s s metric tp =
      some (some [s], ((0 : ℚ) : WithTop ℚ)) := by
    intro kb s metric tp
    show dijkstraLoop kb s metric tp (dijkstraFuel kb) [⟨0, s, none, [s]⟩] [] = _
    have hf : dijkstraFuel kb =
        ((2 * kb.length + 1) * (kb.length + 1) * (kb.length + 1) + 1) + 1 := rfl
    rw [hf]
    simp [dijkstraLoop, dijkstraStep, popMin]
  exact ⟨h, fun kb kb2 s metric tp => by rw [h, h]⟩

/-! ## Claims C2 and C6: search optimality and the no-route case -/

/-- A uniform-mode base with a negative-weight shortcut: A-B direct weight 10,
A-C weight 20, C-B weight -15. -/
def kbNeg : KB :=
  add_edge (add_edge (add_edge [] "A" "C" "m" 20 0 false) "C" "B" "m" (-15) 0 false)
    "A" "B" "m" 10 0 false

/-- C2 fails as stated: on this uniform-mode base with transfer penalty 0 and
connected endpoints, the search returns total 10 while the shortest-path
distance is 5 (the early-return Dijkstra is only correct for non-negative
weights, which the program never checks). -/
theorem claim_C2_counterexample :
    (∀ e ∈ kbNeg, Props.mode e.2 = "m") ∧
    Connected kbNeg "A" "B" ∧
    dijkstra kbNeg "A" "B" Metric.time 0 =
      some (some ["A", "B"], ((10 : ℚ) : WithTop ℚ)) ∧
    shortestDist kbNeg "A" "B" Metric.time = some 5 ∧
    ((10 : ℚ) ≠ 5) := by
  with_unfolding_all decide

/-- C2 amended: for every knowledge base with unique keys whose edges all
carry one mode and have non-negative weights under the chosen metric, and for
transfer penalty 0, the search returns a route whose total equals the
classical shortest-path distance, for any pair of connected nodes. -/
theorem claim_C2_amended :
    ∀ (kb : KB) (M start goal : String) (metric : Metric),
      NodupKeys kb →
      (∀ e ∈ kb, Props.mode e.2 = M) →
      (∀ e ∈ kb, 0 ≤ Props.get e.2 metric) →
      Connected kb start goal →
      (dijkstra kb start goal metric 0).map Prod.snd =
        (shortestDist kb start goal metric).map
          (fun q => ((q : ℚ) : WithTop ℚ)) ∧
      (shortestDist kb start goal metric).isSome := by
  intro kb M start goal metric hnd _ hnn hconn
  rcases loop_some hnn (le_refl 0) (dijkstraFuel kb) _ _
    (invG_init kb start goal metric) (dijkstraFuel_big kb start) with ⟨r, hr, _⟩
  rcases loopZ hnd hnn (dijkstraFuel kb) _ _ (invG_init kb start goal metric)
    (invZ_init kb start goal metric) r hr hconn with ⟨p, t, rfl, hsd⟩
  have hd : dijkstra kb start goal metric 0 =
      some (some p, ((t : ℚ) : WithTop ℚ)) := hr
  rw [hd, hsd]
  exact ⟨rfl, rfl⟩

/-- A single non-bidirectional edge of weight 3. -/
def kbW2 : KB := add_edge [] "A" "B" "m" 3 1 false

/-- Witness for C2 amended at a concrete input. -/
theorem claim_C2_witness :
    (dijkstra kbW2 "A" "B" Metric.time 0).map Prod.snd =
      (shortestDist kbW2 "A" "B" Metric.time).map
        (fun q => ((q : ℚ) : WithTop ℚ)) ∧
    (shortestDist kbW2 "A" "B" Metric.time).isSome :=
  claim_C2_amended kbW2 "m" "A" "B" Metric.time (by decide)
    (by with_unfolding_all decide) (by with_unfolding_all decide)
    (by with_unfolding_all decide)

/-- A two-node negative cycle (one bidirectional edge of weight -1); node C
is unreachable. -/
def kbC6 : KB := add_edge [] "A" "B" "m" (-1) 0 true

theorem lookupV_mem {vis : Visited} {k : VKey} {v : ℚ}
    (h : lookupV vis k = some v) : (k, v) ∈ vis := by
  induction vis with
  | nil => simp [lookupV] at h
  | cons e0 rest ih =>
    by_cases h2 : e0.1 = k
    · simp only [lookupV, h2, if_true, Option.some.injEq] at h
      subst h
      rw [← h2]
      exact List.mem_cons_self _ _
    · simp only [lookupV, h2, if_false] at h
      exact List.mem_cons_of_mem _ (ih h)

theorem mem_insertV (vis : Visited) (k : VKey) (v : ℚ) :
    ∀ kv ∈ insertV vis k v, kv = (k, v) ∨ kv ∈ vis := by
  induction vis with
  | nil => simp [insertV]
  | cons e0 rest ih =>
    intro kv hkv
    by_cases h : e0.1 = k
    · simp only [insertV, h, if_true, List.mem_cons] at hkv
      rcases hkv with h1 | h1
      · exact Or.inl h1
      · exact Or.inr (List.mem_cons_of_mem _ h1)
    · simp only [insertV, h, if_false, List.mem_cons] at hkv
      rcases hkv with h1 | h1
      · exact Or.inr (h1 ▸ List.mem_cons_self _ _)
      · rcases ih kv h1 with h2 | h2
        · exact Or.inl h2
        · exact Or.inr (List.mem_cons_of_mem _ h2)

/-- On the negative cycle, the loop runs forever: for every fuel value the
embedded loop exhausts its fuel (the Python loop never returns). -/
theorem kbC6_loop_none :
    ∀ (fuel : Nat) (pq : List Entry) (vis : Visited),
      (∃ a nn pm p, pq = [⟨a, nn, pm, p⟩] ∧ (nn = "A" ∨ nn = "B") ∧
        (pm = none ∨ pm = some "m") ∧ (∀ kv ∈ vis, a < kv.2)) →
      dijkstraLoop kbC6 "C" Metric.time 2 fuel pq vis = none := by
  intro fuel
  induction fuel with
  | zero => intro pq vis _; rfl
  | succ n2 ih =>
    rintro pq vis ⟨a, nn, pm, p, rfl, hn, hpm, hvis⟩
    have hpen : (if penaltyApplies pm "m" then (2 : ℚ) else 0) = 0 := by
      rcases hpm with rfl | rfl
      · rfl
      · simp [penaltyApplies]
    have hvlt : ∀ v, lookupV vis (nn, pm) = some v → ¬ v ≤ a := by
      intro v hv
      exact not_le.mpr (hvis _ (lookupV_mem hv))
    have hvis2 : ∀ kv ∈ insertV vis (nn, pm) a, a + (-1) + 0 < kv.2 := by
      intro kv hkv
      rcases mem_insertV vis (nn, pm) a kv hkv with rfl | h1
      · show a + (-1) + 0 < a
        linarith
      · have := hvis kv h1
        linarith
    rcases hn with rfl | rfl
    · have hstep : dijkstraStep kbC6 "C" Metric.time 2 [⟨a, "A", pm, p⟩] vis =
          StepRes.cont ([⟨a + (-1) + 0, "B", some "m", p ++ ["B"]⟩])
            (insertV vis ("A", pm) a) := by
        unfold dijkstraStep
        have hpop : popMin [(⟨a, "A", pm, p⟩ : Entry)] =
            some (⟨a, "A", pm, p⟩, []) := rfl
        rw [hpop]
        simp only [if_neg (by decide : ¬("A" = "C"))]
        have hexp : [] ++ expandPushes kbC6 Metric.time 2 ⟨a, "A", pm, p⟩ =
            [⟨a + (-1) + 0, "B", some "m", p ++ ["B"]⟩] := by
          show expandPushes kbC6 Metric.time 2 ⟨a, "A", pm, p⟩ = _
          unfold expandPushes
          have hnb : neighbors kbC6 "A" = [("B", ⟨"m", -1, 0⟩)] := rfl
          rw [hnb, List.map_cons, List.map_nil]
          rw [show Props.get ⟨"m", -1, 0⟩ Metric.time = -1 from rfl, hpen]
        cases hv : lookupV vis ("A", pm) with
        | none => simp only [hv, hexp]
        | some v => simp only [hv, if_neg (hvlt v hv), hexp]
      show (match dijkstraStep kbC6 "C" Metric.time 2 [⟨a, "A", pm, p⟩] vis with
        | StepRes.done r => some r
        | StepRes.cont pq2 vis2 =>
            dijkstraLoop kbC6 "C" Metric.time 2 n2 pq2 vis2) = none
      rw [hstep]
      exact ih _ _ ⟨a + (-1) + 0, "B", some "m", p ++ ["B"], rfl,
        Or.inr rfl, Or.inr rfl, hvis2⟩
    · have hstep : dijkstraStep kbC6 "C" Metric.time 2 [⟨a, "B", pm, p⟩] vis =
          StepRes.cont ([⟨a + (-1) + 0, "A", some "m", p ++ ["A"]⟩])
            (insertV vis ("B", pm) a) := by
        unfold dijkstraStep
        have hpop : popMin [(⟨a, "B", pm, p⟩ : Entry)] =
            some (⟨a, "B", pm, p⟩, []) := rfl
        rw [hpop]
        simp only [if_neg (by decide : ¬("B" = "C"))]
        have hexp : [] ++ expandPushes kbC6 Metric.time 2 ⟨a, "B", pm, p⟩ =
            [⟨a + (-1) + 0, "A", some "m", p ++ ["A"]⟩] := by
          show expandPushes kbC6 Metric.time 2 ⟨a, "B", pm, p⟩ = _
          unfold expandPushes
          have hnb : neighbors kbC6 "B" = [("A", ⟨"m", -1, 0⟩)] := rfl
          rw [hnb, List.map_cons, List.map_nil]
          rw [show Props.get ⟨"m", -1, 0⟩ Metric.time = -1 from rfl, hpen]
        cases hv : lookupV vis ("B", pm) with
        | none => simp only [hv, hexp]
        | some v => simp only [hv, if_neg (hvlt v hv), hexp]
      show (match dijkstraStep kbC6 "C" Metric.time 2 [⟨a, "B", pm, p⟩] vis with
        | StepRes.done r => some r
        | StepRes.cont pq2 vis2 =>
            dijkstraLoop kbC6 "C" Metric.time 2 n2 pq2 vis2) = none
      rw [hstep]
      exact ih _ _ ⟨a + (-1) + 0, "A", some "m", p ++ ["A"], rfl,
        Or.inl rfl, Or.inr rfl, hvis2⟩

/-- C6 fails as stated: with the unreachable goal C on the negative cycle, the
Python loop never empties its queue and never returns; the fueled embedding
exhausts any fuel (result `none`), so no "(None, inf)" result is produced. -/
theorem claim_C6_counterexample :
    ¬ Connected kbC6 "A" "C" ∧
    dijkstra kbC6 "A" "C" Metric.time 2 = none ∧
    (none : Option (Option (List String) × WithTop ℚ)) ≠ some (none, ⊤) := by
  refine ⟨?_, ?_, by simp⟩
  · with_unfolding_all decide
  · exact kbC6_loop_none (dijkstraFuel kbC6) _ _
      ⟨0, "A", none, ["A"], rfl, Or.inl rfl, Or.inl rfl, by simp [lookupV]⟩

/-- C6 amended: with non-negative edge weights and a non-negative transfer
penalty, whenever the goal is unreachable from the start the search terminates
by emptying its queue and returns the absent path with the infinite total. -/
theorem claim_C6_amended :
    ∀ (kb : KB) (start goal : String) (metric : Metric) (tp : ℚ),
      (∀ e ∈ kb, 0 ≤ Props.get e.2 metric) → 0 ≤ tp →
      ¬ Connected kb start goal →
      dijkstra kb start goal metric tp = some (none, ⊤) := by
  intro kb start goal metric tp hnn htp hnc
  rcases loop_some hnn htp (dijkstraFuel kb) _ _ (invG_init kb start goal metric)
    (dijkstraFuel_big kb start) with ⟨r, hr, hc⟩
  rcases hc with rfl | hc
  · exact hr
  · exact absurd hc hnc

/-- Witness for C6 amended at a concrete input: station Z is not on the map. -/
theorem claim_C6_witness :
    dijkstra kbW2 "A" "Z" Metric.time 2 = some (none, ⊤) :=
  claim_C6_amended kbW2 "A" "Z" Metric.time 2 (by with_unfolding_all decide)
    (by with_unfolding_all decide) (by with_unfolding_all decide)

end Actividad2
